import Mathlib

/-!
# Verification of the compliance-backend request pipeline

Shallow embedding of the compliance-backend repository (TypeScript):
* `cleanText` / `cleanWebpageContent` — the regex-based text cleaner from `utils.ts`,
  modelled step by step (each regex replace becomes an explicit scanner on `List Char`).
* `urlRegexTest` — the URL validation regex from `api.ts`, modelled as a decidable
  matcher with the same backtracking (existence-of-split) semantics.
* `parseJSON` — a model of JavaScript `JSON.parse` (recursive-descent over the JSON
  grammar, with JSON whitespace handling and escape validation).
* `stripFences` / `cleanComplianceResponse` / `checkCompliance` — the OpenAI response
  handling from the utility module.
* `initBrowser` / `closeBrowser` / `getRenderedText` and the `/check-compliance`
  route handler, modelled as state-passing functions over a browser-singleton state,
  emitting an event trace (launch / newPage / navigate / closePage / closeBrowser)
  and taking an oracle describing the outcome of each awaited external step.
-/

namespace Compliance

/-- Whitespace characters recognised by the JSON grammar (as in `JSON.parse`). -/
def jsonWs (c : Char) : Bool :=
  c == ' ' || c == '\t' || c == '\n' || c == '\r'

/-- Whitespace as matched by the JavaScript regex class `\s` and trimmed by
`String.prototype.trim` (ASCII whitespace plus the Unicode space characters). -/
def jsWs (c : Char) : Bool :=
  c == ' ' || c == '\t' || c == '\n' || c == '\r' || c == '\x0b' || c == '\x0c' ||
  c == '\u00a0' || c == '\u1680' ||
  (decide (0x2000 ≤ c.toNat) && decide (c.toNat ≤ 0x200a)) ||
  c == '\u2028' || c == '\u2029' || c == '\u202f' || c == '\u205f' ||
  c == '\u3000' || c == '\ufeff'

/-! ## JSON values and a model of `JSON.parse` -/

/-- Parsed JSON values.  Numbers keep their source lexeme (the parser only ever
compares values produced by parsing, so the lexeme representation is adequate). -/
inductive JVal where
  | null : JVal
  | bool (b : Bool) : JVal
  | num (lexeme : List Char) : JVal
  | str (chars : List Char) : JVal
  | arr (elems : List JVal) : JVal
  | obj (members : List (List Char × JVal)) : JVal

/-- Hexadecimal digit test for `\uXXXX` escapes. -/
def isHexDigit (c : Char) : Bool :=
  c.isDigit || (decide ('a' ≤ c) && decide (c ≤ 'f')) || (decide ('A' ≤ c) && decide (c ≤ 'F'))

/-- Value of a hexadecimal digit. -/
def hexVal (c : Char) : Nat :=
  if c.isDigit then c.toNat - 48
  else if decide ('a' ≤ c) && decide (c ≤ 'f') then c.toNat - 87
  else c.toNat - 55

/-- JSON string body parser: consumes characters up to and including the closing
quote, decoding escapes; rejects raw control characters and bad escapes,
exactly as `JSON.parse` does.  Returns the decoded characters and the rest of
the input after the closing quote. -/
def strChars : List Char → Option (List Char × List Char)
  | [] => none
  | c :: t =>
    if c == '"' then some ([], t)
    else if c == '\\' then
      match t with
      | [] => none
      | e :: u =>
        if e == '"' then (strChars u).map (fun p => ('"' :: p.1, p.2))
        else if e == '\\' then (strChars u).map (fun p => ('\\' :: p.1, p.2))
        else if e == '/' then (strChars u).map (fun p => ('/' :: p.1, p.2))
        else if e == 'b' then (strChars u).map (fun p => ('\x08' :: p.1, p.2))
        else if e == 'f' then (strChars u).map (fun p => ('\x0c' :: p.1, p.2))
        else if e == 'n' then (strChars u).map (fun p => ('\n' :: p.1, p.2))
        else if e == 'r' then (strChars u).map (fun p => ('\r' :: p.1, p.2))
        else if e == 't' then (strChars u).map (fun p => ('\t' :: p.1, p.2))
        else if e == 'u' then
          match u with
          | h1 :: h2 :: h3 :: h4 :: u' =>
            if isHexDigit h1 && isHexDigit h2 && isHexDigit h3 && isHexDigit h4 then
              (strChars u').map (fun p =>
                (Char.ofNat (hexVal h1 * 4096 + hexVal h2 * 256 + hexVal h3 * 16 + hexVal h4)
                  :: p.1, p.2))
            else none
          | _ => none
        else none
    else if c.toNat < 32 then none
    else (strChars t).map (fun p => (c :: p.1, p.2))

/-- The longest digit run at the head of the input, and the rest. -/
def spanDigits (l : List Char) : List Char × List Char :=
  (l.takeWhile Char.isDigit, l.dropWhile Char.isDigit)

/-- JSON number: integer part (`0` or a nonzero digit followed by digits). -/
def parseIntPart : List Char → Option (List Char × List Char)
  | [] => none
  | c :: t =>
    if c == '0' then some (['0'], t)
    else if c.isDigit then some (c :: (spanDigits t).1, (spanDigits t).2)
    else none

/-- JSON number: optional fraction part (`.` followed by one or more digits). -/
def parseFracPart (l : List Char) : Option (List Char × List Char) :=
  match l with
  | '.' :: t =>
    if (spanDigits t).1.isEmpty then none
    else some ('.' :: (spanDigits t).1, (spanDigits t).2)
  | _ => some ([], l)

/-- JSON number: optional exponent part (`e`/`E`, optional sign, digits). -/
def parseExpPart (l : List Char) : Option (List Char × List Char) :=
  match l with
  | c :: t =>
    if c == 'e' || c == 'E' then
      match t with
      | '+' :: u =>
        if (spanDigits u).1.isEmpty then none
        else some (c :: '+' :: (spanDigits u).1, (spanDigits u).2)
      | '-' :: u =>
        if (spanDigits u).1.isEmpty then none
        else some (c :: '-' :: (spanDigits u).1, (spanDigits u).2)
      | u =>
        if (spanDigits u).1.isEmpty then none
        else some (c :: (spanDigits u).1, (spanDigits u).2)
    else some ([], c :: t)
  | [] => some ([], [])

/-- JSON number parser; returns the lexeme and the remaining input. -/
def parseNum (l : List Char) : Option (List Char × List Char) :=
  match l with
  | '-' :: t =>
    match parseIntPart t with
    | none => none
    | some (ip, r1) =>
      match parseFracPart r1 with
      | none => none
      | some (fp, r2) =>
        match parseExpPart r2 with
        | none => none
        | some (ep, r3) => some ('-' :: (ip ++ (fp ++ ep)), r3)
  | _ =>
    match parseIntPart l with
    | none => none
    | some (ip, r1) =>
      match parseFracPart r1 with
      | none => none
      | some (fp, r2) =>
        match parseExpPart r2 with
        | none => none
        | some (ep, r3) => some (ip ++ (fp ++ ep), r3)

mutual

/-- JSON value parser (fuelled recursive descent, one fuel unit per call). -/
def parseVal : Nat → List Char → Option (JVal × List Char)
  | 0, _ => none
  | fuel + 1, l =>
    match l with
    | 'n' :: 'u' :: 'l' :: 'l' :: t => some (JVal.null, t)
    | 't' :: 'r' :: 'u' :: 'e' :: t => some (JVal.bool true, t)
    | 'f' :: 'a' :: 'l' :: 's' :: 'e' :: t => some (JVal.bool false, t)
    | '"' :: t => (strChars t).map (fun p => (JVal.str p.1, p.2))
    | '[' :: t =>
      match t.dropWhile jsonWs with
      | ']' :: r => some (JVal.arr [], r)
      | t1 => (parseElems fuel t1).map (fun p => (JVal.arr p.1, p.2))
    | '{' :: t =>
      match t.dropWhile jsonWs with
      | '}' :: r => some (JVal.obj [], r)
      | t1 => (parseMembers fuel t1).map (fun p => (JVal.obj p.1, p.2))
    | _ => (parseNum l).map (fun p => (JVal.num p.1, p.2))

/-- Comma-separated array elements, terminated by `]`. -/
def parseElems : Nat → List Char → Option (List JVal × List Char)
  | 0, _ => none
  | fuel + 1, l =>
    match parseVal fuel l with
    | none => none
    | some (v, r) =>
      match r.dropWhile jsonWs with
      | ',' :: r2 =>
        match parseElems fuel (r2.dropWhile jsonWs) with
        | some (xs, r3) => some (v :: xs, r3)
        | none => none
      | ']' :: r2 => some ([v], r2)
      | _ => none

/-- Comma-separated object members (`"key" : value`), terminated by `}`. -/
def parseMembers : Nat → List Char → Option (List (List Char × JVal) × List Char)
  | 0, _ => none
  | fuel + 1, l =>
    match l with
    | '"' :: t =>
      match strChars t with
      | none => none
      | some (k, r) =>
        match r.dropWhile jsonWs with
        | ':' :: r2 =>
          match parseVal fuel (r2.dropWhile jsonWs) with
          | none => none
          | some (v, r3) =>
            match r3.dropWhile jsonWs with
            | ',' :: r4 =>
              match parseMembers fuel (r4.dropWhile jsonWs) with
              | some (ms, r5) => some ((k, v) :: ms, r5)
              | none => none
            | '}' :: r4 => some ([(k, v)], r4)
            | _ => none
        | _ => none
    | _ => none

end

/-- Model of `JSON.parse`: skip leading JSON whitespace, parse one value,
require the rest to be JSON whitespace only. -/
def parseJSON (s : String) : Option JVal :=
  match parseVal (2 * s.data.length + 2) (s.data.dropWhile jsonWs) with
  | some (v, r) =>
    match r.dropWhile jsonWs with
    | [] => some v
    | _ => none
  | none => none

/-- Property of a continuation that may follow a completed JSON value
(whitespace, comma, or a closing bracket): such continuations cannot extend a
number lexeme. -/
def numStopper (t : List Char) : Prop :=
  ∀ x, t.head? = some x → (jsonWs x = true ∨ x = ',' ∨ x = ']' ∨ x = '}')

/-! ## Markdown fence stripping and the compliance evaluator -/

/-- The seven characters of the regex alternative ` ```json `. -/
def fenceJson : List Char := "```json".data

/-- The three characters of the regex alternative ` ``` `. -/
def fenceBare : List Char := "```".data

/-- Model of `rawResponse.replace(/```json|```/g, '')`: scan left to right,
at each position preferring the longer alternative, deleting matches. -/
def removeFencesGo : Nat → List Char → List Char
  | 0, l => l
  | _, [] => []
  | fuel + 1, c :: t =>
    if fenceJson.isPrefixOf (c :: t) then removeFencesGo fuel ((c :: t).drop 7)
    else if fenceBare.isPrefixOf (c :: t) then removeFencesGo fuel ((c :: t).drop 3)
    else c :: removeFencesGo fuel t

/-- `removeFences` with enough fuel for any input. -/
def removeFences (l : List Char) : List Char :=
  removeFencesGo (l.length + 1) l

/-- Remove trailing JavaScript whitespace (the right half of `String.trim`). -/
def rtrimWs : List Char → List Char
  | [] => []
  | c :: t =>
    match rtrimWs t with
    | [] => if jsWs c then [] else [c]
    | r => c :: r

/-- Model of JavaScript `String.prototype.trim` on character lists. -/
def jsTrimBoth (l : List Char) : List Char :=
  (rtrimWs l).dropWhile jsWs

/-- `rawResponse.replace(/```json|```/g, '').trim()` from `cleanComplianceResponse`. -/
def stripFences (raw : String) : String :=
  ⟨jsTrimBoth (removeFences raw.data)⟩

/-- Errors the compliance evaluator can produce: an upstream completion-service
failure (network/auth, propagated from the OpenAI client) or the distinct
`Error('Invalid JSON response')` raised on a parse failure. -/
inductive EvalErr where
  | upstream (msg : String) : EvalErr
  | invalidJson : EvalErr
deriving DecidableEq

/-- `cleanComplianceResponse`: strip fences, trim, `JSON.parse`; a parse failure
raises the invalid-model-output error. -/
def cleanComplianceResponse (raw : String) : Except EvalErr JVal :=
  match parseJSON (stripFences raw) with
  | some v => Except.ok v
  | none => Except.error EvalErr.invalidJson

/-- Outcome of the awaited chat-completion call in `checkCompliance`:
either the client throws (network/auth), or it returns a first-choice message
content that may be `null`. -/
structure CompletionOracle where
  result : Except String (Option String)

/-- `checkCompliance`: one chat-completion call; on success the (possibly null)
content is coerced with `|| ''` and handed to `cleanComplianceResponse`. -/
def checkCompliance (o : CompletionOracle) (_prompt : String) : Except EvalErr JVal :=
  match o.result with
  | Except.error e => Except.error (EvalErr.upstream e)
  | Except.ok content => cleanComplianceResponse (content.getD "")

/-! ## The text cleaner (`cleanText` in `utils.ts`, `cleanWebpageContent` in the
renderer module) — each regex replace is modelled as a scanner. -/

/-- Step 1: `.replace(/\n{2,}/g, '\n')` — collapse newline runs to one. -/
def collapseNewlinesGo : Nat → List Char → List Char
  | 0, l => l
  | _, [] => []
  | fuel + 1, c :: t =>
    if c == '\n' then '\n' :: collapseNewlinesGo fuel (t.dropWhile (fun d => d == '\n'))
    else c :: collapseNewlinesGo fuel t

/-- Step 1 with enough fuel for any input. -/
def collapseNewlines (l : List Char) : List Char :=
  collapseNewlinesGo (l.length + 1) l

/-- Step 2: `.replace(/\s+/g, ' ')` — collapse every whitespace run to one space. -/
def collapseWhitespaceGo : Nat → List Char → List Char
  | 0, l => l
  | _, [] => []
  | fuel + 1, c :: t =>
    if jsWs c then ' ' :: collapseWhitespaceGo fuel (t.dropWhile jsWs)
    else c :: collapseWhitespaceGo fuel t

/-- Step 2 with enough fuel for any input. -/
def collapseWhitespace (l : List Char) : List Char :=
  collapseWhitespaceGo (l.length + 1) l

/-- Sentence-ending punctuation of the cleaner's step 3. -/
def isPunct (c : Char) : Bool :=
  c == '.' || c == '!' || c == '?'

/-- Step 3: `.replace(/([.!?])\s+/g, '$1\n')` — after punctuation, replace a
whitespace run with a single newline. -/
def splitSentencesGo : Nat → List Char → List Char
  | 0, l => l
  | _, [] => []
  | fuel + 1, c :: t =>
    if isPunct c then
      match t with
      | [] => [c]
      | d :: t' =>
        if jsWs d then c :: '\n' :: splitSentencesGo fuel (t'.dropWhile jsWs)
        else c :: splitSentencesGo fuel (d :: t')
    else c :: splitSentencesGo fuel t

/-- Step 3 with enough fuel for any input. -/
def splitSentences (l : List Char) : List Char :=
  splitSentencesGo (l.length + 1) l

/-- `\d` of the digit-run regex. -/
def isDigitChar (c : Char) : Bool := c.isDigit

/-- `\w` for JavaScript word-boundary (`\b`) purposes. -/
def isWordChar (c : Char) : Bool := c.isAlpha || c.isDigit || c == '_'

/-- JavaScript `\b`: holds between two positions iff exactly one side is a word
character (a missing side counts as non-word). -/
def wordBoundary (prev next : Option Char) : Bool :=
  (match prev with | some c => isWordChar c | none => false) !=
  (match next with | some c => isWordChar c | none => false)

/-- The ways one repetition of `(\d{1,2}\s?)` can match at the head of the
input, as (consumed, rest) pairs in JavaScript backtracking preference order
(two digits before one, with the optional whitespace before without). -/
def repSplits (l : List Char) : List (List Char × List Char) :=
  match l with
  | [] => []
  | a :: t1 =>
    if isDigitChar a then
      match t1 with
      | [] => [([a], [])]
      | b :: t2 =>
        if isDigitChar b then
          match t2 with
          | w :: t3 =>
            if jsWs w then [([a, b, w], t3), ([a, b], t2), ([a], t1)]
            else [([a, b], t2), ([a], t1)]
          | [] => [([a, b], []), ([a], t1)]
        else if jsWs b then [([a, b], t2), ([a], t1)]
        else [([a], t1)]
    else []

/-- First defined value in a list of options. -/
def firstSome : List (Option Nat) → Option Nat
  | [] => none
  | o :: rest => o <|> firstSome rest

/-- Backtracking matcher for `(\d{1,2}\s?){3,}\b` starting at the current
position: `prev` is the character before the position (for the final `\b`),
`count` the number of repetitions matched so far.  Returns the number of
characters consumed by a successful match, exploring alternatives in
JavaScript preference order (another repetition before stopping). -/
def tryReps : Nat → Char → List Char → Nat → Option Nat
  | 0, _, _, _ => none
  | fuel + 1, prev, l, count =>
    firstSome ((repSplits l).map (fun p =>
      (tryReps fuel (p.1.getLastD prev) p.2 (count + 1)).map (fun n => p.1.length + n)))
    <|>
    (if 3 ≤ count && wordBoundary (some prev) l.head? then some 0 else none)

/-- Step 4 scanner: at each position where `\b` holds, try to match
`(\d{1,2}\s?){3,}\b`; on a match delete the consumed characters and resume
after them (prev becomes the last deleted character), otherwise keep the
character.  `prev` is the previous character of the original string. -/
def removeRunsGo : Nat → Option Char → List Char → List Char
  | 0, _, l => l
  | fuel + 1, prev, l =>
    match l with
    | [] => []
    | c :: t =>
      if wordBoundary prev (some c) then
        match tryReps ((c :: t).length + 1) c (c :: t) 0 with
        | some n => removeRunsGo fuel (((c :: t).take n).getLastD c) ((c :: t).drop n)
        | none => c :: removeRunsGo fuel (some c) t
      else c :: removeRunsGo fuel (some c) t

/-- Step 4: `.replace(/\b(\d{1,2}\s?){3,}\b/g, '')` — remove runs of three or
more short numeric tokens. -/
def removeNumberRuns (l : List Char) : List Char :=
  removeRunsGo (l.length + 1) none l

/-- Step 5: `.replace(/[\t\r]/g, '')`. -/
def removeTabsCRs (l : List Char) : List Char :=
  l.filter (fun c => !(c == '\t' || c == '\r'))

/-- The text cleaner (`cleanText` in `utils.ts`): the five regex replaces in
source order, followed by `.trim()`. -/
def cleanText (s : String) : String :=
  ⟨jsTrimBoth (removeTabsCRs (removeNumberRuns (splitSentences
    (collapseWhitespace (collapseNewlines s.data)))))⟩

/-- `cleanWebpageContent` (the renderer module's copy of the same cleaner). -/
def cleanWebpageContent (s : String) : String := cleanText s

/-! ## URL validation (`urlRegex` in `api.ts`) -/

/-- First character class of the URL regex: `[-a-zA-Z0-9@:%._\+~#=]`. -/
def urlClassA (c : Char) : Bool :=
  c.isAlpha || c.isDigit || c == '-' || c == '@' || c == ':' || c == '%' ||
  c == '.' || c == '_' || c == '+' || c == '~' || c == '#' || c == '='

/-- Second character class of the URL regex: `[a-zA-Z0-9()]`. -/
def urlClassB (c : Char) : Bool :=
  c.isAlpha || c.isDigit || c == '(' || c == ')'

/-- Trailing character class of the URL regex: `[-a-zA-Z0-9()@:%_\+.~#?&//=]`. -/
def urlClassC (c : Char) : Bool :=
  c.isAlpha || c.isDigit || c == '-' || c == '(' || c == ')' || c == '@' ||
  c == ':' || c == '%' || c == '_' || c == '+' || c == '.' || c == '~' ||
  c == '#' || c == '?' || c == '&' || c == '/' || c == '='

/-- Matcher for the part of the URL regex after the optional `www.`:
`[-a-zA-Z0-9@:%._\+~#=]{1,256}\.[a-zA-Z0-9()]{1,6}\b[-a-zA-Z0-9()@:%_\+.~#?&//=]*$`.
With backtracking, a match exists iff some split of the input fits. -/
def urlHostTail (l : List Char) : Bool :=
  (List.range' 1 (min 256 l.length)).any (fun i =>
    (l.take i).all urlClassA &&
    (match l.drop i with
     | '.' :: r2 =>
       (List.range' 1 6).any (fun j =>
         decide ((r2.take j).length = j) &&
         (r2.take j).all urlClassB &&
         wordBoundary (r2.take j).getLast? (r2.drop j).head? &&
         (r2.drop j).all urlClassC)
     | _ => false))

/-- The URL regex after the scheme: optional `www.` then the host tail. -/
def urlAfterScheme (l : List Char) : Bool :=
  match l with
  | 'w' :: 'w' :: 'w' :: '.' :: r => urlHostTail r || urlHostTail ('w' :: 'w' :: 'w' :: '.' :: r)
  | _ => urlHostTail l

/-- The anchored URL regex from `api.ts`:
`/^(https?:\/\/(?:www\.)?...)$/.test(url)`. -/
def urlRegexTest (s : String) : Bool :=
  match s.data with
  | 'h' :: 't' :: 't' :: 'p' :: rest =>
    match rest with
    | 's' :: ':' :: '/' :: '/' :: r => urlAfterScheme r
    | ':' :: '/' :: '/' :: r => urlAfterScheme r
    | _ => false
  | _ => false

/-! ## Browser singleton, renderer and route handler -/

/-- Events observed while handling a request. -/
inductive Ev where
  | launch (b : Nat) : Ev
  | newPage (p : Nat) : Ev
  | navigate (url : String) : Ev
  | closePage (p : Nat) : Ev
  | closeBrowser (b : Nat) : Ev
deriving DecidableEq

/-- The module-level browser singleton (`let browser: Browser | null = null`)
plus a fresh-id counter used to name launched browsers and opened pages. -/
structure BrowserState where
  browser : Option Nat
  nextId : Nat
deriving DecidableEq

/-- Outcomes of the awaited steps inside `getRenderedText`: whether
`puppeteer.launch`, `newPage`, the page setup calls, `page.goto` and
`page.evaluate` succeed, and the raw `document.body.innerText || ''`. -/
structure RenderOracle where
  launchOk : Bool
  newPageOk : Bool
  setupOk : Bool
  gotoOk : Bool
  evalOk : Bool
  rawText : String
deriving DecidableEq

/-- Failure modes of the renderer. -/
inductive RenderErr where
  | launchFailed : RenderErr
  | newPageFailed : RenderErr
  | setupFailed : RenderErr
  | gotoFailed : RenderErr
  | evalFailed : RenderErr
deriving DecidableEq

/-- `initBrowser`: reuse the singleton if present, otherwise launch (which may
throw).  Returns the new state and browser id, plus emitted events. -/
def initBrowser (launchOk : Bool) (s : BrowserState) :
    Except RenderErr (BrowserState × Nat) × List Ev :=
  match s.browser with
  | some b => (Except.ok (s, b), [])
  | none =>
    if launchOk then
      (Except.ok (⟨some s.nextId, s.nextId + 1⟩, s.nextId), [Ev.launch s.nextId])
    else (Except.error RenderErr.launchFailed, [])

/-- `closeBrowser`: close the singleton if it exists and clear the reference;
a no-op when no browser exists. -/
def closeBrowser (s : BrowserState) : BrowserState × List Ev :=
  match s.browser with
  | none => (s, [])
  | some b => (⟨none, s.nextId⟩, [Ev.closeBrowser b])

/-- Result of one `getRenderedText` call: final state, result, event trace. -/
structure RenderOut where
  state : BrowserState
  result : Except RenderErr String
  events : List Ev

/-- `getRenderedText`: init/reuse the browser, open a page, set it up, navigate,
extract and clean the text; the `finally` block closes the page (and only the
page) on every exit path on which a page was opened. -/
def getRenderedText (o : RenderOracle) (url : String) (s : BrowserState) : RenderOut :=
  match initBrowser o.launchOk s with
  | (Except.error e, evs) => ⟨s, Except.error e, evs⟩
  | (Except.ok (s1, _b), evs) =>
    if !o.newPageOk then ⟨s1, Except.error RenderErr.newPageFailed, evs⟩
    else
      let p := s1.nextId
      let s2 : BrowserState := ⟨s1.browser, s1.nextId + 1⟩
      if !o.setupOk then
        ⟨s2, Except.error RenderErr.setupFailed, evs ++ [Ev.newPage p, Ev.closePage p]⟩
      else if !o.gotoOk then
        ⟨s2, Except.error RenderErr.gotoFailed,
          evs ++ [Ev.newPage p, Ev.navigate url, Ev.closePage p]⟩
      else if !o.evalOk then
        ⟨s2, Except.error RenderErr.evalFailed,
          evs ++ [Ev.newPage p, Ev.navigate url, Ev.closePage p]⟩
      else
        ⟨s2, Except.ok (cleanWebpageContent o.rawText),
          evs ++ [Ev.newPage p, Ev.navigate url, Ev.closePage p]⟩

/-- Bodies of responses the route can produce: an error object, the
`{ text: ... }` object the handler actually sends on success, or a parsed-JSON
body (the shape a `ComplianceResult` relay would use — never produced). -/
inductive RespBody where
  | errorMsg (msg : String) : RespBody
  | textBody (t : String) : RespBody
  | jsonBody (v : JVal) : RespBody

/-- An HTTP response: status code and body. -/
structure HttpResponse where
  status : Nat
  body : RespBody

/-- Result of one request to `POST /api/check-compliance`. -/
structure HandlerOut where
  state : BrowserState
  response : HttpResponse
  events : List Ev

/-- The `POST /check-compliance` handler from `api.ts`: validate the `url`
field (reject falsy or non-matching values with a 400 before any side effect),
then render; respond 200 with `{ text }` on success or 500 on a render error;
the `finally` block awaits `closeBrowser()`. -/
def checkComplianceHandler (o : RenderOracle) (body : Option String) (s : BrowserState) :
    HandlerOut :=
  match body with
  | none => ⟨s, ⟨400, RespBody.errorMsg "Invalid URL format"⟩, []⟩
  | some url =>
    if url = "" ∨ urlRegexTest url = false then
      ⟨s, ⟨400, RespBody.errorMsg "Invalid URL format"⟩, []⟩
    else
      let r := getRenderedText o url s
      let resp : HttpResponse :=
        match r.result with
        | Except.ok t => ⟨200, RespBody.textBody t⟩
        | Except.error _ => ⟨500, RespBody.errorMsg "Error rendering the page"⟩
      let c := closeBrowser r.state
      ⟨c.1, resp, r.events ++ c.2⟩

/-! ## Invariant predicates used to verify the cleaner -/

/-- Every newline in `l` is immediately preceded by sentence punctuation
(`prev` is the character just before `l`, if any). -/
def nlOkFrom : Option Char → List Char → Prop
  | _, [] => True
  | prev, c :: t =>
    (c = '\n' → ∃ p, prev = some p ∧ isPunct p = true) ∧ nlOkFrom (some c) t

/-- No two adjacent whitespace characters. -/
def noAdjWs (l : List Char) : Prop :=
  List.Chain' (fun a b => ¬(jsWs a = true ∧ jsWs b = true)) l

/-- Whitespace directly after sentence punctuation can only be a newline. -/
def noPunctSpace (l : List Char) : Prop :=
  List.Chain' (fun a b => isPunct a = true → jsWs b = true → b = '\n') l

/-! ## Claim theorems -/

/-- Claim C9: calling `closeBrowser` when no browser instance exists is a no-op
that does not fail; when a browser exists it closes the browser and clears the
singleton reference, so a subsequent render re-initializes a fresh browser
(the first step of a render, `initBrowser`, launches a new instance on the
cleared state). -/
theorem C9_closeBrowser_spec :
    (∀ n : Nat, closeBrowser ⟨none, n⟩ = (⟨none, n⟩, [])) ∧
    (∀ b n : Nat, closeBrowser ⟨some b, n⟩ = (⟨none, n⟩, [Ev.closeBrowser b])) ∧
    (∀ n : Nat, initBrowser true ⟨none, n⟩ =
      (Except.ok (⟨some n, n + 1⟩, n), [Ev.launch n])) ∧
    (∀ (np su go ev : Bool) (raw url : String) (n : Nat),
      (getRenderedText ⟨true, np, su, go, ev, raw⟩ url ⟨none, n⟩).events.head? =
        some (Ev.launch n)) := by
  refine ⟨fun n => rfl, fun b n => rfl, fun n => rfl, ?_⟩
  intro np su go ev raw url n
  cases np <;> cases su <;> cases go <;> cases evv : ev <;> rfl

/-- Claim C2: for every request body whose `url` field is absent, falsy, or not
matching the URL regex, the handler responds 400 with
`{"error": "Invalid URL format"}`, leaves the browser state untouched and
performs no side effects at all (empty event trace: the renderer and evaluator
are never invoked). -/
theorem C2_invalid_url_rejected_no_side_effects :
    ∀ (o : RenderOracle) (s : BrowserState) (body : Option String),
      (body = none ∨ ∃ u, body = some u ∧ (u = "" ∨ urlRegexTest u = false)) →
      checkComplianceHandler o body s =
        ⟨s, ⟨400, RespBody.errorMsg "Invalid URL format"⟩, []⟩ := by
  intro o s body h
  rcases h with h | ⟨u, rfl, hu⟩
  · subst h; rfl
  · show checkComplianceHandler o (some u) s = _
    simp only [checkComplianceHandler]
    rw [if_pos hu]

/-- Witness for C2 at the spec's concrete scenario `{"url": "not-a-url"}`. -/
theorem C2_witness :
    checkComplianceHandler ⟨true, true, true, true, true, ""⟩ (some "not-a-url") ⟨none, 0⟩ =
      ⟨⟨none, 0⟩, ⟨400, RespBody.errorMsg "Invalid URL format"⟩, []⟩ :=
  C2_invalid_url_rejected_no_side_effects _ _ _
    (Or.inr ⟨"not-a-url", rfl, Or.inr (by decide)⟩)

/-- Claim C3 (violated by the code): the handler's `finally` block awaits
`closeBrowser()` on every request, so the shared browser IS closed as part of
handling an individual request — both on success and on a per-request render
failure — leaving the singleton cleared afterwards. -/
theorem C3_browser_closed_during_request_handling :
    (Ev.closeBrowser 0 ∈ (checkComplianceHandler ⟨true, true, true, true, true, "Hello."⟩
      (some "https://example.com") ⟨none, 0⟩).events) ∧
    ((checkComplianceHandler ⟨true, true, true, true, true, "Hello."⟩
      (some "https://example.com") ⟨none, 0⟩).state.browser = none) ∧
    (Ev.closeBrowser 0 ∈ (checkComplianceHandler ⟨true, true, true, false, true, ""⟩
      (some "https://example.com") ⟨none, 0⟩).events) := by
  refine ⟨?_, rfl, ?_⟩ <;> decide

/-- Claim C1 (violated by the code): on a validated URL with a successful
render the handler responds 200, but the body is the `{ text: ... }` object
with the rendered text — the compliance evaluator is never invoked and no
response of the handler ever carries a parsed-JSON (`ComplianceResult`) body. -/
theorem C1_success_returns_text_not_compliance_result :
    ((checkComplianceHandler ⟨true, true, true, true, true, "We accept bank account deposits."⟩
      (some "https://example.com") ⟨none, 0⟩).response.status = 200) ∧
    ((checkComplianceHandler ⟨true, true, true, true, true, "We accept bank account deposits."⟩
      (some "https://example.com") ⟨none, 0⟩).response.body =
        RespBody.textBody "We accept bank account deposits.") ∧
    (∀ (o : RenderOracle) (body : Option String) (s : BrowserState) (v : JVal),
      (checkComplianceHandler o body s).response.body ≠ RespBody.jsonBody v) := by
  refine ⟨rfl, rfl, ?_⟩
  intro o body s v
  match body with
  | none => simp [checkComplianceHandler]
  | some u =>
    simp only [checkComplianceHandler]
    split
    · simp
    · cases h : (getRenderedText o u s).result <;> simp [h]

/-- Claim C5: whenever the completion text is not valid JSON after
fence-stripping, the evaluator returns the distinct invalid-model-output error
(no crash, no partial data), and that error is distinguishable from every
upstream completion-service failure. -/
theorem C5_parse_failure_invalid_model_output :
    ∀ raw : String, parseJSON (stripFences raw) = none →
      cleanComplianceResponse raw = Except.error EvalErr.invalidJson ∧
      ∀ m : String, EvalErr.invalidJson ≠ EvalErr.upstream m := by
  intro raw h
  refine ⟨?_, ?_⟩
  · unfold cleanComplianceResponse
    rw [h]
  · intro m hc
    cases hc

/-- Witness for C5 at the spec's concrete scenario: the evaluator mock returns
the non-JSON text `"Sorry, I cannot help."`. -/
theorem C5_witness :
    cleanComplianceResponse "Sorry, I cannot help." = Except.error EvalErr.invalidJson ∧
    ∀ m : String, EvalErr.invalidJson ≠ EvalErr.upstream m :=
  C5_parse_failure_invalid_model_output "Sorry, I cannot help." rfl

/-- Claim C10: a completion choice whose message content is `null` or the empty
string makes `checkCompliance` raise the invalid-JSON error: the content is
coerced to `''`, fence-stripping leaves it empty, and parsing `''` fails. -/
theorem C10_null_or_empty_content_errors :
    ∀ (o : CompletionOracle) (prompt : String),
      (o.result = Except.ok none ∨ o.result = Except.ok (some "")) →
      checkCompliance o prompt = Except.error EvalErr.invalidJson := by
  intro o prompt h
  rcases o with ⟨res⟩
  rcases h with h | h <;> simp only at h <;> subst h <;> rfl

/-- Witness for C10 with a `null` content. -/
theorem C10_witness :
    checkCompliance ⟨Except.ok none⟩ "prompt" = Except.error EvalErr.invalidJson :=
  C10_null_or_empty_content_errors ⟨Except.ok none⟩ "prompt" (Or.inl rfl)

/-- Claim C6, counterexample: for the valid JSON text `X = "\"```\""` (a JSON
string containing three backticks), the global fence-stripping regex also
deletes the backticks inside `X`, so the round trip fails. -/
theorem C6_counterexample :
    parseJSON (stripFences ("```json\n" ++ "\"```\"" ++ "\n```")) ≠ parseJSON "\"```\"" ∧
    parseJSON "\"```\"" =
      some (JVal.str [Char.ofNat 96, Char.ofNat 96, Char.ofNat 96]) := by
  refine ⟨?_, rfl⟩
  have h1 : parseJSON (stripFences ("```json\n" ++ "\"```\"" ++ "\n```")) =
      some (JVal.str []) := rfl
  have h2 : parseJSON "\"```\"" =
      some (JVal.str [Char.ofNat 96, Char.ofNat 96, Char.ofNat 96]) := rfl
  rw [h1, h2]
  simp

/-- Claim C7, counterexample: the cleaner is not idempotent.  On
`"x 1 2 3 !"` the digit-run removal (step 4, which runs after whitespace
collapsing) deletes `"1 2 3"` but keeps both surrounding spaces, leaving a
double space that a second cleaning pass collapses. -/
theorem C7_counterexample :
    cleanText (cleanText "x 1 2 3 !") ≠ cleanText "x 1 2 3 !" := by
  decide

/-- Claim C4: on every exit path of `getRenderedText` — success, any failed
awaited step, or early return — the per-request page that was opened is closed
exactly once before the call returns (at most one page is opened, and close
events match open events one for one). -/
theorem C4_page_closed_exactly_once :
    ∀ (o : RenderOracle) (url : String) (s : BrowserState) (p : Nat),
      ((getRenderedText o url s).events.count (Ev.newPage p) ≤ 1) ∧
      ((getRenderedText o url s).events.count (Ev.closePage p) =
        (getRenderedText o url s).events.count (Ev.newPage p)) := by
  intro o url s p
  rcases o with ⟨l, np, su, go, ev, raw⟩
  rcases s with ⟨br, n⟩
  rcases br with _ | b <;> cases l <;> cases np <;> cases su <;> cases go <;> cases ev <;>
    simp [getRenderedText, initBrowser, List.count_cons, List.count_nil] <;>
    split_ifs <;> simp_all

/-! ## Lemmas about the cleaner scanners -/

theorem splitSentencesGo_nil (fuel : Nat) : splitSentencesGo fuel [] = [] := by
  cases fuel <;> rfl

theorem collapseNewlinesGo_nil (fuel : Nat) : collapseNewlinesGo fuel [] = [] := by
  cases fuel <;> rfl

theorem collapseWhitespaceGo_nil (fuel : Nat) : collapseWhitespaceGo fuel [] = [] := by
  cases fuel <;> rfl

theorem removeRunsGo_nil (fuel : Nat) (prev : Option Char) : removeRunsGo fuel prev [] = [] := by
  cases fuel <;> rfl

/-- Characters of the output of step 2 are single spaces or non-whitespace input characters. -/
theorem mem_collapseWhitespaceGo {a : Char} :
    ∀ (fuel : Nat) (l : List Char), l.length < fuel →
      a ∈ collapseWhitespaceGo fuel l → a = ' ' ∨ (a ∈ l ∧ jsWs a = false) := by
  intro fuel
  induction fuel with
  | zero => intro l h; omega
  | succ fuel ih =>
    intro l hlen hmem
    match l with
    | [] => simp [collapseWhitespaceGo] at hmem
    | c :: t =>
      simp only [collapseWhitespaceGo] at hmem
      by_cases hc : jsWs c
      · rw [if_pos hc] at hmem
        rcases List.mem_cons.mp hmem with h | h
        · exact Or.inl h
        · have hsub : t.dropWhile jsWs <:+ t := List.dropWhile_suffix jsWs
          have hlen2 : (t.dropWhile jsWs).length < fuel :=
            lt_of_le_of_lt hsub.length_le (by simp at hlen; omega)
          rcases ih _ hlen2 h with h' | ⟨h1, h2⟩
          · exact Or.inl h'
          · exact Or.inr ⟨List.mem_cons_of_mem _ (hsub.sublist.mem h1), h2⟩
      · rw [if_neg hc] at hmem
        rcases List.mem_cons.mp hmem with h | h
        · subst h; exact Or.inr ⟨List.mem_cons_self _ _, by simpa using hc⟩
        · rcases ih _ (by simp at hlen; omega) h with h' | ⟨h1, h2⟩
          · exact Or.inl h'
          · exact Or.inr ⟨List.mem_cons_of_mem _ h1, h2⟩



/-- Step 3 leaves the head character unchanged. -/
theorem head_splitSentencesGo :
    ∀ (fuel : Nat) (l : List Char), (splitSentencesGo fuel l).head? = l.head? := by
  intro fuel l
  match fuel, l with
  | 0, [] => rfl
  | 0, c :: t => rfl
  | fuel + 1, [] => rfl
  | fuel + 1, c :: [] =>
    by_cases hc : isPunct c <;> simp [splitSentencesGo, hc]
  | fuel + 1, c :: d :: t' =>
    by_cases hc : isPunct c <;> by_cases hd : jsWs d <;>
      simp [splitSentencesGo, hc, hd]

/-- Step 3 only adds newlines. -/
theorem mem_splitSentencesGo {a : Char} :
    ∀ (fuel : Nat) (l : List Char), l.length < fuel →
      a ∈ splitSentencesGo fuel l → a = '\n' ∨ a ∈ l := by
  intro fuel
  induction fuel with
  | zero => intro l h; omega
  | succ fuel ih =>
    intro l hlen hmem
    match l with
    | [] => simp [splitSentencesGo] at hmem
    | c :: [] =>
      by_cases hc : isPunct c <;>
        simp [splitSentencesGo, hc, splitSentencesGo_nil] at hmem <;> simp [hmem]
    | c :: d :: t' =>
      by_cases hc : isPunct c <;> by_cases hd : jsWs d <;>
        simp only [splitSentencesGo, hc, hd, if_true, if_false, Bool.false_eq_true,
          ite_true, ite_false] at hmem
      · rcases List.mem_cons.mp hmem with h | h
        · exact Or.inr (by simp [h])
        rcases List.mem_cons.mp h with h' | h'
        · exact Or.inl h'
        · have hsub : t'.dropWhile jsWs <:+ t' := List.dropWhile_suffix jsWs
          have hlen2 : (t'.dropWhile jsWs).length < fuel :=
            lt_of_le_of_lt hsub.length_le (by simp at hlen; omega)
          rcases ih _ hlen2 h' with h'' | h''
          · exact Or.inl h''
          · exact Or.inr (by simp [hsub.sublist.mem h''])
      · rcases List.mem_cons.mp hmem with h | h
        · exact Or.inr (by simp [h])
        · rcases ih _ (by simp at hlen ⊢; omega) h with h'' | h''
          · exact Or.inl h''
          · exact Or.inr (by simp_all)
      · rcases List.mem_cons.mp hmem with h | h
        · exact Or.inr (by simp [h])
        · rcases ih _ (by simp at hlen ⊢; omega) h with h'' | h''
          · exact Or.inl h''
          · exact Or.inr (by simp_all)
      · rcases List.mem_cons.mp hmem with h | h
        · exact Or.inr (by simp [h])
        · rcases ih _ (by simp at hlen ⊢; omega) h with h'' | h''
          · exact Or.inl h''
          · exact Or.inr (by simp_all)

/-- Step 1 only keeps input characters. -/
theorem mem_collapseNewlinesGo {a : Char} :
    ∀ (fuel : Nat) (l : List Char), l.length < fuel →
      a ∈ collapseNewlinesGo fuel l → a ∈ l := by
  intro fuel
  induction fuel with
  | zero => intro l h; omega
  | succ fuel ih =>
    intro l hlen hmem
    match l with
    | [] => simp [collapseNewlinesGo] at hmem
    | c :: t =>
      simp only [collapseNewlinesGo] at hmem
      by_cases hc : c == '\n'
      · rw [if_pos hc] at hmem
        rcases List.mem_cons.mp hmem with h | h
        · simp_all
        · have hsub := List.dropWhile_suffix (l := t) (fun d => d == '\n')
          have := ih _ (lt_of_le_of_lt hsub.length_le (by simp at hlen; omega)) h
          exact List.mem_cons_of_mem _ (hsub.sublist.mem this)
      · rw [if_neg hc] at hmem
        rcases List.mem_cons.mp hmem with h | h
        · simp [h]
        · exact List.mem_cons_of_mem _ (ih _ (by simp at hlen; omega) h)

/-- Step 4 only keeps input characters. -/
theorem mem_removeRunsGo {a : Char} :
    ∀ (fuel : Nat) (prev : Option Char) (l : List Char),
      a ∈ removeRunsGo fuel prev l → a ∈ l := by
  intro fuel
  induction fuel with
  | zero => intro prev l h; exact h
  | succ fuel ih =>
    intro prev l hmem
    match l with
    | [] => simp [removeRunsGo] at hmem
    | c :: t =>
      simp only [removeRunsGo] at hmem
      by_cases hb : wordBoundary prev (some c)
      · rw [if_pos hb] at hmem
        match htr : tryReps ((c :: t).length + 1) c (c :: t) 0 with
        | some n =>
          rw [htr] at hmem
          exact List.drop_subset _ _ (ih _ _ hmem)
        | none =>
          rw [htr] at hmem
          rcases List.mem_cons.mp hmem with h | h
          · simp [h]
          · exact List.mem_cons_of_mem _ (ih _ _ h)
      · rw [if_neg hb] at hmem
        rcases List.mem_cons.mp hmem with h | h
        · simp [h]
        · exact List.mem_cons_of_mem _ (ih _ _ h)

/-- The head of a `dropWhile` result fails the predicate. -/
theorem head_dropWhile_false {p : Char → Bool} {c : Char} :
    ∀ l : List Char, (l.dropWhile p).head? = some c → p c = false := by
  intro l
  induction l with
  | nil => intro h; simp [List.dropWhile] at h
  | cons d t ih =>
    intro h
    by_cases hd : p d
    · rw [List.dropWhile_cons_of_pos hd] at h; exact ih h
    · rw [List.dropWhile_cons_of_neg hd] at h
      simp at h
      subst h
      simpa using hd

/-- Punctuation characters are neither digits nor whitespace. -/
theorem punct_not_digit_ws {c : Char} (h : isPunct c = true) :
    isDigitChar c = false ∧ jsWs c = false := by
  simp only [isPunct, Bool.or_eq_true, beq_iff_eq] at h
  rcases h with (h | h) | h <;> subst h <;> exact ⟨by decide, by decide⟩

/-- Newline is not punctuation. -/
theorem newline_not_punct : isPunct '\n' = false := by decide



theorem nlOkFrom_cons {prev : Option Char} {c : Char} {t : List Char} :
    nlOkFrom prev (c :: t) ↔
      (c = '\n' → ∃ p, prev = some p ∧ isPunct p = true) ∧ nlOkFrom (some c) t := by
  rfl

/-- If the head is not a newline, the previous character is irrelevant. -/
theorem nlOkFrom_of_head {p q : Option Char} {l : List Char}
    (hh : l.head? ≠ some '\n') (h : nlOkFrom p l) : nlOkFrom q l := by
  match l with
  | [] => trivial
  | c :: t =>
    rcases nlOkFrom_cons.mp h with ⟨h1, h2⟩
    exact nlOkFrom_cons.mpr ⟨fun hc => absurd (by simp [hc]) hh, h2⟩

/-- The invariant restricted to the part after a consumed block `a ++ [x]`. -/
theorem nlOkFrom_append_last :
    ∀ (a : List Char) (p : Option Char) (x : Char) (b : List Char),
      nlOkFrom p (a ++ x :: b) → nlOkFrom (some x) b := by
  intro a
  induction a with
  | nil => intro p x b h; exact (nlOkFrom_cons.mp h).2
  | cons c a' ih =>
    intro p x b h
    exact ih _ x b (nlOkFrom_cons.mp h).2

/-- The invariant restricted to a leading part. -/
theorem nlOkFrom_append_left :
    ∀ (a : List Char) (p : Option Char) (b : List Char),
      nlOkFrom p (a ++ b) → nlOkFrom p a := by
  intro a
  induction a with
  | nil => intro p b _; trivial
  | cons c a' ih =>
    intro p b h
    exact nlOkFrom_cons.mpr ⟨(nlOkFrom_cons.mp h).1, ih _ _ (nlOkFrom_cons.mp h).2⟩

/-- The invariant forbids two consecutive newlines. -/
theorem nlOkFrom_not_infix_nn {p : Option Char} {l : List Char}
    (h : nlOkFrom p l) : ¬ (['\n', '\n'] <:+: l) := by
  rintro ⟨s, t, hst⟩
  induction s generalizing p l with
  | nil =>
    subst hst
    rcases nlOkFrom_cons.mp h with ⟨_, h2⟩
    rcases nlOkFrom_cons.mp h2 with ⟨h3, _⟩
    rcases h3 rfl with ⟨q, hq, hpq⟩
    simp at hq
    subst hq
    simp [newline_not_punct] at hpq
  | cons c s' ih =>
    subst hst
    exact ih (p := some c) (nlOkFrom_cons.mp h).2 rfl

theorem exists_append_getLastD (l : List Char) (d : Char) (h : l ≠ []) :
    ∃ l₀, l = l₀ ++ [l.getLastD d] := by
  refine ⟨l.dropLast, ?_⟩
  conv_lhs => rw [← List.dropLast_append_getLast h]
  rw [List.getLastD_eq_getLast?, List.getLast?_eq_getLast _ h]
  rfl

/-- Step 3 establishes the punctuation-before-newline invariant whenever its
input contains no newline (as is the case after whitespace collapsing). -/
theorem splitSentencesGo_nlOkFrom :
    ∀ (fuel : Nat) (l : List Char), l.length < fuel → (∀ c ∈ l, c ≠ '\n') →
      ∀ prev : Option Char, nlOkFrom prev (splitSentencesGo fuel l) := by
  intro fuel
  induction fuel with
  | zero => intro l h; omega
  | succ fuel ih =>
    intro l hlen hnl prev
    match l with
    | [] => simp [splitSentencesGo_nil]; trivial
    | c :: [] =>
      have hc' : c ≠ '\n' := hnl c (by simp)
      by_cases hc : isPunct c <;> simp only [splitSentencesGo, hc, if_true, if_false] <;>
        exact nlOkFrom_cons.mpr ⟨fun h => absurd h hc', by
          first
          | trivial
          | (rw [splitSentencesGo_nil]; trivial)⟩
    | c :: d :: t' =>
      have hc' : c ≠ '\n' := hnl c (by simp)
      by_cases hc : isPunct c <;> by_cases hd : jsWs d <;>
        simp only [splitSentencesGo, hc, hd, if_true, if_false]
      · -- punct + whitespace: c :: '\n' :: Go (dropWhile)
        refine nlOkFrom_cons.mpr ⟨fun h => absurd h hc', ?_⟩
        refine nlOkFrom_cons.mpr ⟨fun _ => ⟨c, rfl, hc⟩, ?_⟩
        have hsub : t'.dropWhile jsWs <:+ t' := List.dropWhile_suffix jsWs
        have := ih (t'.dropWhile jsWs)
          (lt_of_le_of_lt hsub.length_le (by simp at hlen; omega))
          (fun x hx => hnl x (by simp [hsub.sublist.mem hx]))
          (some '\n')
        exact this
      · refine nlOkFrom_cons.mpr ⟨fun h => absurd h hc', ?_⟩
        exact ih (d :: t') (by simp at hlen ⊢; omega)
          (fun x hx => hnl x (by simp at hx ⊢; tauto)) (some c)
      · refine nlOkFrom_cons.mpr ⟨fun h => absurd h hc', ?_⟩
        exact ih (d :: t') (by simp at hlen ⊢; omega)
          (fun x hx => hnl x (by simp at hx ⊢; tauto)) (some c)
      · refine nlOkFrom_cons.mpr ⟨fun h => absurd h hc', ?_⟩
        exact ih (d :: t') (by simp at hlen ⊢; omega)
          (fun x hx => hnl x (by simp at hx ⊢; tauto)) (some c)



/-- Each repetition alternative is a nonempty digit/whitespace block that
prefixes the input. -/
theorem repSplits_spec :
    ∀ (l : List Char) (sg rest : List Char), (sg, rest) ∈ repSplits l →
      sg ≠ [] ∧ l = sg ++ rest ∧ ∀ c ∈ sg, (isDigitChar c || jsWs c) = true := by
  intro l sg rest hmem
  match l with
  | [] => simp [repSplits] at hmem
  | a :: [] =>
    by_cases ha : isDigitChar a <;> simp [repSplits, ha] at hmem
    obtain ⟨rfl, rfl⟩ := hmem
    exact ⟨by simp, by simp, by simp [ha]⟩
  | a :: b :: [] =>
    by_cases ha : isDigitChar a <;> by_cases hb : isDigitChar b <;>
      by_cases hw : jsWs b <;> simp [repSplits, ha, hb, hw] at hmem
    · rcases hmem with ⟨rfl, rfl⟩ | ⟨rfl, rfl⟩ <;>
        exact ⟨by simp, by simp, by simp [ha, hb]⟩
    · rcases hmem with ⟨rfl, rfl⟩ | ⟨rfl, rfl⟩ <;>
        exact ⟨by simp, by simp, by simp [ha, hb]⟩
    · rcases hmem with ⟨rfl, rfl⟩ | ⟨rfl, rfl⟩ <;>
        exact ⟨by simp, by simp, by simp [ha, hw]⟩
    · obtain ⟨rfl, rfl⟩ := hmem
      exact ⟨by simp, by simp, by simp [ha]⟩
  | a :: b :: w :: t3 =>
    by_cases ha : isDigitChar a <;> by_cases hb : isDigitChar b <;>
      by_cases hw : jsWs w <;> by_cases hwb : jsWs b <;>
      simp [repSplits, ha, hb, hw, hwb] at hmem
    · rcases hmem with ⟨rfl, rfl⟩ | ⟨rfl, rfl⟩ | ⟨rfl, rfl⟩ <;>
        exact ⟨by simp, by simp, by simp [ha, hb, hw]⟩
    · rcases hmem with ⟨rfl, rfl⟩ | ⟨rfl, rfl⟩ | ⟨rfl, rfl⟩ <;>
        exact ⟨by simp, by simp, by simp [ha, hb, hw]⟩
    · rcases hmem with ⟨rfl, rfl⟩ | ⟨rfl, rfl⟩ <;>
        exact ⟨by simp, by simp, by simp [ha, hb]⟩
    · rcases hmem with ⟨rfl, rfl⟩ | ⟨rfl, rfl⟩ <;>
        exact ⟨by simp, by simp, by simp [ha, hb]⟩
    · rcases hmem with ⟨rfl, rfl⟩ | ⟨rfl, rfl⟩ <;>
        exact ⟨by simp, by simp, by simp [ha, hwb]⟩
    · obtain ⟨rfl, rfl⟩ := hmem
      exact ⟨by simp, by simp, by simp [ha]⟩
    · rcases hmem with ⟨rfl, rfl⟩ | ⟨rfl, rfl⟩ <;>
        exact ⟨by simp, by simp, by simp [ha, hwb]⟩
    · obtain ⟨rfl, rfl⟩ := hmem
      exact ⟨by simp, by simp, by simp [ha]⟩

theorem firstSome_eq_some {n : Nat} :
    ∀ xs : List (Option Nat), firstSome xs = some n → ∃ o ∈ xs, o = some n := by
  intro xs
  induction xs with
  | nil => intro h; simp [firstSome] at h
  | cons o rest ih =>
    intro h
    simp only [firstSome] at h
    match o with
    | some m =>
      simp at h
      exact ⟨some m, by simp, by simp [h]⟩
    | none =>
      simp only [Option.none_orElse] at h
      rcases ih h with ⟨o', ho', h'⟩
      exact ⟨o', by simp [ho'], h'⟩

/-- A successful `tryReps` match consumes only digit/whitespace characters,
no more than the input, and (before three repetitions) at least one. -/
theorem tryReps_spec :
    ∀ (fuel : Nat) (prev : Char) (l : List Char) (count n : Nat),
      tryReps fuel prev l count = some n →
      (∀ c ∈ l.take n, (isDigitChar c || jsWs c) = true) ∧ n ≤ l.length ∧
        (count ≤ 2 → 1 ≤ n) := by
  intro fuel
  induction fuel with
  | zero => intro prev l count n h; simp [tryReps] at h
  | succ fuel ih =>
    intro prev l count n h
    simp only [tryReps] at h
    match hfs : firstSome ((repSplits l).map (fun p =>
        (tryReps fuel (p.1.getLastD prev) p.2 (count + 1)).map (fun m => p.1.length + m))) with
    | some m =>
      rw [hfs] at h
      simp at h
      subst h
      rcases firstSome_eq_some _ hfs with ⟨o, ho, h'⟩
      rcases List.mem_map.mp ho with ⟨⟨sg, rest⟩, hsp, ho'⟩
      subst ho'
      rcases Option.map_eq_some'.mp h' with ⟨n', hn', hmn⟩
      simp only at hn' hmn
      rcases repSplits_spec l sg rest hsp with ⟨hne, hdec, hchars⟩
      rcases ih _ _ _ _ hn' with ⟨ih1, ih2, _⟩
      subst hdec
      refine ⟨?_, ?_, ?_⟩
      · intro c hc
        rw [← hmn] at hc
        rw [List.take_append_eq_append_take] at hc
        rcases List.mem_append.mp hc with hc | hc
        · exact hchars c (List.mem_of_mem_take hc)
        · have : sg.length + n' - sg.length = n' := by omega
          rw [this] at hc
          exact ih1 c hc
      · simp only [List.length_append]
        omega
      · intro _
        have : 1 ≤ sg.length := List.length_pos.mpr hne
        omega
    | none =>
      rw [hfs] at h
      simp only [Option.none_orElse] at h
      by_cases hcond : (3 ≤ count && wordBoundary (some prev) l.head?) = true
      · rw [if_pos hcond] at h
        simp at h
        subst h
        simp at hcond
        exact ⟨by simp, by simp, fun hc => by omega⟩
      · rw [if_neg hcond] at h
        simp at h



/-- Digit or whitespace characters are not punctuation. -/
theorem digit_ws_not_punct {c : Char} (h : (isDigitChar c || jsWs c) = true) :
    isPunct c = false := by
  by_cases hp : isPunct c
  · rcases punct_not_digit_ws hp with ⟨h1, h2⟩
    rw [h1, h2] at h
    simp at h
  · simpa using hp

/-- Step 4 preserves the punctuation-before-newline invariant: deleted blocks
consist of digits and whitespace, so no newline can directly follow one. -/
theorem removeRunsGo_nlOkFrom :
    ∀ (fuel : Nat) (prev : Option Char) (l : List Char), l.length < fuel →
      nlOkFrom prev l → nlOkFrom prev (removeRunsGo fuel prev l) := by
  intro fuel
  induction fuel with
  | zero => intro prev l h; omega
  | succ fuel ih =>
    intro prev l hlen hok
    match l with
    | [] => rw [removeRunsGo_nil]; trivial
    | c :: t =>
      simp only [removeRunsGo]
      by_cases hb : wordBoundary prev (some c)
      · rw [if_pos hb]
        match htr : tryReps ((c :: t).length + 1) c (c :: t) 0 with
        | some n =>
          show nlOkFrom prev
            (removeRunsGo fuel (some (((c :: t).take n).getLastD c)) ((c :: t).drop n))
          rcases tryReps_spec _ _ _ _ _ htr with ⟨hchars, hle, hpos⟩
          have hn1 : 1 ≤ n := hpos (by omega)
          have hMne : (c :: t).take n ≠ [] := by
            apply List.ne_nil_of_length_pos
            rw [List.length_take]
            simp
            omega
          obtain ⟨M₀, hM₀⟩ := exists_append_getLastD ((c :: t).take n) c hMne
          have hok' : nlOkFrom (some (((c :: t).take n).getLastD c)) ((c :: t).drop n) := by
            apply nlOkFrom_append_last M₀ prev
            have : M₀ ++ ((c :: t).take n).getLastD c :: (c :: t).drop n =
                (c :: t).take n ++ (c :: t).drop n := by
              rw [hM₀]; simp
            rw [this, List.take_append_drop]
            exact hok
          have hdlen : ((c :: t).drop n).length < fuel := by
            rw [List.length_drop]
            simp at hlen ⊢
            omega
          have ihres := ih (some (((c :: t).take n).getLastD c)) _ hdlen hok'
          match hGo : removeRunsGo fuel (some (((c :: t).take n).getLastD c)) ((c :: t).drop n) with
          | [] => trivial
          | g :: G' =>
            rw [hGo] at ihres
            refine nlOkFrom_cons.mpr ⟨?_, (nlOkFrom_cons.mp ihres).2⟩
            intro hg
            rcases (nlOkFrom_cons.mp ihres).1 hg with ⟨q, hq, hpq⟩
            have hqmem : q ∈ (c :: t).take n := by
              have : ((c :: t).take n).getLastD c ∈ (c :: t).take n := by
                rw [hM₀]; simp
              injection hq with hq'
              exact hq' ▸ this
            have := digit_ws_not_punct (hchars q hqmem)
            rw [this] at hpq
            simp at hpq
        | none =>
          show nlOkFrom prev (c :: removeRunsGo fuel (some c) t)
          refine nlOkFrom_cons.mpr ⟨(nlOkFrom_cons.mp hok).1, ?_⟩
          exact ih (some c) t (by simp at hlen; omega) (nlOkFrom_cons.mp hok).2
      · rw [if_neg hb]
        refine nlOkFrom_cons.mpr ⟨(nlOkFrom_cons.mp hok).1, ?_⟩
        exact ih (some c) t (by simp at hlen; omega) (nlOkFrom_cons.mp hok).2



/-- `rtrimWs` returns a prefix; the removed part is all whitespace. -/
theorem rtrimWs_decomp : ∀ l : List Char,
    ∃ w, rtrimWs l ++ w = l ∧ ∀ c ∈ w, jsWs c = true := by
  intro l
  induction l with
  | nil => exact ⟨[], rfl, by simp⟩
  | cons c t ih =>
    rcases ih with ⟨w, hw, hws⟩
    simp only [rtrimWs]
    match hr : rtrimWs t with
    | [] =>
      by_cases hc : jsWs c
      · rw [if_pos hc]
        refine ⟨c :: t, by simp, ?_⟩
        intro x hx
        rcases List.mem_cons.mp hx with h | h
        · subst h; exact hc
        · rw [hr] at hw
          simp at hw
          rw [hw] at hws
          exact hws x h
      · rw [if_neg hc]
        rw [hr] at hw
        simp at hw
        rw [hw] at hws
        exact ⟨t, rfl, hws⟩
    | r :: rs =>
      rw [hr] at hw
      exact ⟨w, by simp [← hw], hws⟩

/-- The last character surviving `rtrimWs` is not whitespace. -/
theorem rtrimWs_last : ∀ (l : List Char) (c : Char),
    (rtrimWs l).getLast? = some c → jsWs c = false := by
  intro l
  induction l with
  | nil => intro c h; simp [rtrimWs] at h
  | cons d t ih =>
    intro c h
    simp only [rtrimWs] at h
    match hr : rtrimWs t with
    | [] =>
      rw [hr] at h
      by_cases hd : jsWs d
      · rw [if_pos hd] at h; simp at h
      · rw [if_neg hd] at h
        simp at h
        subst h
        simpa using hd
    | r :: rs =>
      rw [hr] at h
      rw [List.getLast?_cons_cons] at h
      exact ih c (hr ▸ h)

/-- After dropping leading whitespace the invariant holds for any context. -/
theorem nlOkFrom_dropWhileWs {p q : Option Char} :
    ∀ l : List Char, nlOkFrom p l → nlOkFrom q (l.dropWhile jsWs) := by
  intro l
  induction l generalizing p q with
  | nil => intro h; trivial
  | cons c t ih =>
    intro h
    by_cases hc : jsWs c
    · rw [List.dropWhile_cons_of_pos hc]
      exact ih (nlOkFrom_cons.mp h).2
    · rw [List.dropWhile_cons_of_neg hc]
      refine nlOkFrom_of_head ?_ (p := p) h
      intro hh
      simp at hh
      rw [hh] at hc
      exact hc (by decide)

/-- The filter of step 5 leaves a tab/CR-free list unchanged. -/
theorem removeTabsCRs_eq_self {l : List Char}
    (h : ∀ c ∈ l, c ≠ '\t' ∧ c ≠ '\r') : removeTabsCRs l = l := by
  apply List.filter_eq_self.mpr
  intro a ha
  rcases h a ha with ⟨h1, h2⟩
  simp [h1, h2]

/-- Trimming preserves the punctuation-before-newline invariant (for the
leading context `none`). -/
theorem nlOkFrom_jsTrimBoth {l : List Char} (h : nlOkFrom none l) :
    nlOkFrom none (jsTrimBoth l) := by
  rcases rtrimWs_decomp l with ⟨w, hw, _⟩
  have h1 : nlOkFrom none (rtrimWs l) := nlOkFrom_append_left _ _ _ (hw ▸ h)
  exact nlOkFrom_dropWhileWs _ h1

/-- Characters of the trim are characters of the input. -/
theorem mem_jsTrimBoth {a : Char} {l : List Char} (h : a ∈ jsTrimBoth l) : a ∈ l := by
  rcases rtrimWs_decomp l with ⟨w, hw, _⟩
  have h1 : a ∈ rtrimWs l := (List.dropWhile_suffix jsWs).sublist.mem h
  rw [← hw]
  exact List.mem_append.mpr (Or.inl h1)

/-- Claim C8: for every input string, the cleaner's output contains no tab,
no carriage return, and no two consecutive newline characters. -/
theorem C8_no_tabs_crs_double_newlines :
    ∀ s : String,
      '\t' ∉ (cleanText s).data ∧ '\r' ∉ (cleanText s).data ∧
      ¬ (['\n', '\n'] <:+: (cleanText s).data) := by
  intro s
  have hdata : (cleanText s).data = jsTrimBoth (removeTabsCRs (removeNumberRuns
      (splitSentences (collapseWhitespace (collapseNewlines s.data))))) := rfl
  rw [hdata]
  set A := collapseNewlines s.data with hA
  set B := collapseWhitespace A with hB
  set C := splitSentences B with hC
  set D := removeNumberRuns C with hD
  have hBn : ∀ c ∈ B, jsWs c = true → c = ' ' := by
    intro c hc hws
    rcases mem_collapseWhitespaceGo (A.length + 1) A (by omega) hc with h | ⟨_, h⟩
    · exact h
    · rw [h] at hws; simp at hws
  have hBnl : ∀ c ∈ B, c ≠ '\n' := by
    intro c hc hne
    subst hne
    have := hBn '\n' hc (by decide)
    simp at this
  have hCok : nlOkFrom none C :=
    splitSentencesGo_nlOkFrom (B.length + 1) B (by omega) hBnl none
  have hDok : nlOkFrom none D :=
    removeRunsGo_nlOkFrom (C.length + 1) none C (by omega) hCok
  have hCtab : ∀ c ∈ C, c ≠ '\t' ∧ c ≠ '\r' := by
    intro c hc
    rcases mem_splitSentencesGo (B.length + 1) B (by omega) hc with h | h
    · subst h; exact ⟨by decide, by decide⟩
    · constructor <;> intro hne <;> subst hne
      · have := hBn '\t' h (by decide); simp at this
      · have := hBn '\r' h (by decide); simp at this
  have hDtab : ∀ c ∈ D, c ≠ '\t' ∧ c ≠ '\r' := fun c hc =>
    hCtab c (mem_removeRunsGo (C.length + 1) none C hc)
  have hED : removeTabsCRs D = D := removeTabsCRs_eq_self hDtab
  rw [hED]
  refine ⟨?_, ?_, ?_⟩
  · intro hmem
    exact (hDtab '\t' (mem_jsTrimBoth hmem)).1 rfl
  · intro hmem
    exact (hDtab '\r' (mem_jsTrimBoth hmem)).2 rfl
  · exact nlOkFrom_not_infix_nn (nlOkFrom_jsTrimBoth hDok)

/-! ## Idempotence of the cleaner on digit-free inputs -/

/-- Chains restrict to suffixes. -/
theorem chain'_of_suffix {R : Char → Char → Prop} {s l : List Char}
    (hs : s <:+ l) (h : List.Chain' R l) : List.Chain' R s := by
  rcases hs with ⟨a, rfl⟩
  exact (List.chain'_append.mp h).2.1

/-- Chains restrict to prefixes. -/
theorem chain'_of_pre {R : Char → Char → Prop} {s l : List Char}
    (hs : ∃ a, s ++ a = l) (h : List.Chain' R l) : List.Chain' R s := by
  rcases hs with ⟨a, rfl⟩
  exact (List.chain'_append.mp h).1

/-- Head of step 2's output. -/
theorem head_collapseWhitespaceGo :
    ∀ (fuel : Nat) (l : List Char), l.length < fuel →
      (collapseWhitespaceGo fuel l).head? =
        l.head?.map (fun c => if jsWs c then ' ' else c) := by
  intro fuel l h
  match fuel, l with
  | fuel + 1, [] => rfl
  | fuel + 1, c :: t =>
    by_cases hc : jsWs c <;> simp [collapseWhitespaceGo, hc]

/-- Step 2's output has no two adjacent whitespace characters. -/
theorem collapseWhitespaceGo_noAdjWs :
    ∀ (fuel : Nat) (l : List Char), l.length < fuel →
      noAdjWs (collapseWhitespaceGo fuel l) := by
  intro fuel
  induction fuel with
  | zero => intro l h; omega
  | succ fuel ih =>
    intro l hlen
    match l with
    | [] => rw [collapseWhitespaceGo_nil]; exact List.chain'_nil
    | c :: t =>
      simp only [collapseWhitespaceGo]
      by_cases hc : jsWs c
      · rw [if_pos hc]
        have hdlen : (t.dropWhile jsWs).length < fuel :=
          lt_of_le_of_lt (List.dropWhile_suffix jsWs).length_le (by simp at hlen; omega)
        refine List.chain'_cons'.mpr ⟨?_, ih _ hdlen⟩
        intro b hb
        rw [head_collapseWhitespaceGo fuel _ hdlen] at hb
        match hh : (t.dropWhile jsWs).head? with
        | none => rw [hh] at hb; simp at hb
        | some d =>
          rw [hh] at hb
          have hd := head_dropWhile_false t hh
          simp [hd] at hb
          subst hb
          intro hcon
          rw [hd] at hcon
          simp at hcon
      · rw [if_neg hc]
        refine List.chain'_cons'.mpr ⟨?_, ih _ (by simp at hlen; omega)⟩
        intro b _ hcon
        exact hc (by simp [hcon.1])

/-- Step 3 preserves the absence of adjacent whitespace. -/
theorem splitSentencesGo_noAdjWs :
    ∀ (fuel : Nat) (l : List Char), l.length < fuel → noAdjWs l →
      noAdjWs (splitSentencesGo fuel l) := by
  intro fuel
  induction fuel with
  | zero => intro l h; omega
  | succ fuel ih =>
    intro l hlen hadj
    match l with
    | [] => rw [splitSentencesGo_nil]; exact List.chain'_nil
    | c :: t =>
      simp only [splitSentencesGo]
      by_cases hc : isPunct c
      · rw [if_pos hc]
        match t with
        | [] => simp [noAdjWs]
        | d :: t' =>
          show noAdjWs (if jsWs d = true then c :: '\n' :: splitSentencesGo fuel (t'.dropWhile jsWs)
            else c :: splitSentencesGo fuel (d :: t'))
          by_cases hd : jsWs d
          · rw [if_pos hd]
            have hdlen : (t'.dropWhile jsWs).length < fuel :=
              lt_of_le_of_lt (List.dropWhile_suffix jsWs).length_le (by simp at hlen; omega)
            refine List.chain'_cons'.mpr ⟨?_, List.chain'_cons'.mpr ⟨?_, ?_⟩⟩
            · intro b _ hcon
              have := (punct_not_digit_ws hc).2
              rw [this] at hcon
              simp at hcon
            · intro b hb hcon
              rw [head_splitSentencesGo] at hb
              have := head_dropWhile_false t' hb
              rw [this] at hcon
              simp at hcon
            · exact ih _ hdlen (chain'_of_suffix
                ((List.dropWhile_suffix jsWs).trans (⟨[c, d], rfl⟩ : t' <:+ c :: d :: t')) hadj)
          · rw [if_neg hd]
            refine List.chain'_cons'.mpr ⟨?_, ?_⟩
            · intro b hb hcon
              rw [head_splitSentencesGo] at hb
              simp at hb
              subst hb
              exact hd hcon.2
            · exact ih _ (by simp at hlen ⊢; omega) (List.chain'_cons.mp hadj).2
      · rw [if_neg hc]
        match t with
        | [] =>
          refine List.chain'_cons'.mpr ⟨?_, ?_⟩
          · intro b hb
            rw [head_splitSentencesGo, List.head?_nil] at hb
            simp at hb
          · rw [splitSentencesGo_nil]; exact List.chain'_nil
        | d :: t' =>
          refine List.chain'_cons'.mpr ⟨?_, ?_⟩
          · intro b hb
            rw [head_splitSentencesGo] at hb
            simp at hb
            subst hb
            exact (List.chain'_cons.mp hadj).1
          · exact ih _ (by simp at hlen ⊢; omega) (List.chain'_cons.mp hadj).2

/-- Step 3's output never has non-newline whitespace right after punctuation. -/
theorem splitSentencesGo_noPunctSpace :
    ∀ (fuel : Nat) (l : List Char), l.length < fuel →
      noPunctSpace (splitSentencesGo fuel l) := by
  intro fuel
  induction fuel with
  | zero => intro l h; omega
  | succ fuel ih =>
    intro l hlen
    match l with
    | [] => rw [splitSentencesGo_nil]; exact List.chain'_nil
    | c :: t =>
      simp only [splitSentencesGo]
      by_cases hc : isPunct c
      · rw [if_pos hc]
        match t with
        | [] => simp [noPunctSpace]
        | d :: t' =>
          show noPunctSpace (if jsWs d = true then
              c :: '\n' :: splitSentencesGo fuel (t'.dropWhile jsWs)
            else c :: splitSentencesGo fuel (d :: t'))
          by_cases hd : jsWs d
          · rw [if_pos hd]
            have hdlen : (t'.dropWhile jsWs).length < fuel :=
              lt_of_le_of_lt (List.dropWhile_suffix jsWs).length_le (by simp at hlen; omega)
            refine List.chain'_cons'.mpr ⟨fun b hb _ _ => by simp at hb; exact hb.symm,
              List.chain'_cons'.mpr ⟨?_, ih _ hdlen⟩⟩
            · intro b _ hp
              rw [newline_not_punct] at hp
              simp at hp
          · rw [if_neg hd]
            refine List.chain'_cons'.mpr ⟨?_, ih _ (by simp at hlen ⊢; omega)⟩
            intro b hb _ hws
            rw [head_splitSentencesGo] at hb
            simp at hb
            subst hb
            exact absurd hws hd
      · rw [if_neg hc]
        refine List.chain'_cons'.mpr ⟨fun b _ hp _ => absurd hp hc, ?_⟩
        match t with
        | [] => rw [splitSentencesGo_nil]; exact List.chain'_nil
        | d :: t' => exact ih _ (by simp at hlen ⊢; omega)



/-- With no digits at hand, one repetition cannot match. -/
theorem repSplits_eq_nil {l : List Char}
    (h : ∀ c, l.head? = some c → isDigitChar c = false) : repSplits l = [] := by
  match l with
  | [] => rfl
  | a :: t =>
    have ha := h a rfl
    simp only [repSplits, ha]
    simp

/-- Step 4 is the identity on digit-free inputs. -/
theorem removeRunsGo_id_of_no_digit :
    ∀ (fuel : Nat) (prev : Option Char) (l : List Char), l.length < fuel →
      (∀ c ∈ l, isDigitChar c = false) → removeRunsGo fuel prev l = l := by
  intro fuel
  induction fuel with
  | zero => intro prev l h; omega
  | succ fuel ih =>
    intro prev l hlen hnd
    match l with
    | [] => exact removeRunsGo_nil _ _
    | c :: t =>
      have htr : ∀ m, tryReps (m + 1) c (c :: t) 0 = none := by
        intro m
        simp only [tryReps]
        rw [repSplits_eq_nil (fun x hx => by simp at hx; subst hx; exact hnd c (by simp))]
        simp [firstSome]
      simp only [removeRunsGo]
      by_cases hb : wordBoundary prev (some c)
      · rw [if_pos hb]
        have := htr (c :: t).length
        rw [this]
        rw [ih (some c) t (by simp at hlen; omega) (fun x hx => hnd x (by simp [hx]))]
      · rw [if_neg hb]
        rw [ih (some c) t (by simp at hlen; omega) (fun x hx => hnd x (by simp [hx]))]

/-- Step 1 is the identity when every newline is preceded by punctuation. -/
theorem collapseNewlinesGo_id :
    ∀ (fuel : Nat) (prev : Option Char) (l : List Char), l.length < fuel →
      nlOkFrom prev l → collapseNewlinesGo fuel l = l := by
  intro fuel
  induction fuel with
  | zero => intro prev l h; omega
  | succ fuel ih =>
    intro prev l hlen hok
    match l with
    | [] => exact collapseNewlinesGo_nil _
    | c :: t =>
      simp only [collapseNewlinesGo]
      by_cases hc : c == '\n'
      · rw [if_pos hc]
        have hc' : c = '\n' := by simpa using hc
        subst hc'
        have ht : t.dropWhile (fun d => d == '\n') = t := by
          match t with
          | [] => rfl
          | d :: t' =>
            have hok2 := (nlOkFrom_cons.mp hok).2
            have hd : d ≠ '\n' := by
              intro hdn
              rcases (nlOkFrom_cons.mp hok2).1 hdn with ⟨q, hq, hpq⟩
              injection hq with hq'
              subst hq'
              rw [newline_not_punct] at hpq
              simp at hpq
            exact List.dropWhile_cons_of_neg (by simpa using hd)
        rw [ht, ih (some '\n') t (by simp at hlen; omega) (nlOkFrom_cons.mp hok).2]
      · rw [if_neg hc]
        rw [ih (some c) t (by simp at hlen; omega) (nlOkFrom_cons.mp hok).2]

/-- On inputs with no adjacent whitespace, step 2 just maps whitespace to a
plain space. -/
theorem collapseWhitespaceGo_map :
    ∀ (fuel : Nat) (l : List Char), l.length < fuel → noAdjWs l →
      collapseWhitespaceGo fuel l = l.map (fun c => if jsWs c then ' ' else c) := by
  intro fuel
  induction fuel with
  | zero => intro l h; omega
  | succ fuel ih =>
    intro l hlen hadj
    match l with
    | [] => exact collapseWhitespaceGo_nil _
    | c :: t =>
      simp only [collapseWhitespaceGo, List.map_cons]
      by_cases hc : jsWs c
      · rw [if_pos hc, if_pos hc]
        have ht : t.dropWhile jsWs = t := by
          match t with
          | [] => rfl
          | d :: t' =>
            have hpair := (List.chain'_cons.mp hadj).1
            have hd : ¬ jsWs d = true := fun hdw => hpair ⟨hc, hdw⟩
            exact List.dropWhile_cons_of_neg hd
        rw [ht, ih t (by simp at hlen; omega) (List.chain'_cons'.mp hadj).2]
      · rw [if_neg hc, if_neg hc]
        rw [ih t (by simp at hlen; omega) (List.chain'_cons'.mp hadj).2]

/-- `rtrimWs` is the identity when the last character is not whitespace. -/
theorem rtrimWs_eq_self :
    ∀ l : List Char, (∀ c, l.getLast? = some c → jsWs c = false) → rtrimWs l = l := by
  intro l
  induction l with
  | nil => intro _; rfl
  | cons c t ih =>
    intro h
    simp only [rtrimWs]
    match t with
    | [] =>
      have := h c rfl
      simp only [rtrimWs]
      rw [this]
      simp
    | d :: t' =>
      have ht : rtrimWs (d :: t') = d :: t' := by
        apply ih
        intro x hx
        exact h x (by rw [List.getLast?_cons_cons]; exact hx)
      rw [ht]

/-- `getLast?` of a nonempty suffix. -/
theorem getLast?_of_suffix : ∀ {s l : List Char}, s <:+ l → s ≠ [] →
    s.getLast? = l.getLast? := by
  intro s l hs hne
  rcases hs with ⟨a, rfl⟩
  induction a with
  | nil => simp
  | cons x a' ih =>
    match hsa : a' ++ s with
    | [] => rcases List.append_eq_nil.mp hsa with ⟨_, h2⟩; exact absurd h2 hne
    | y :: ys =>
      rw [List.cons_append, hsa, List.getLast?_cons_cons, ← hsa, ih]

/-- JavaScript `trim` is idempotent. -/
theorem jsTrimBoth_idem (l : List Char) : jsTrimBoth (jsTrimBoth l) = jsTrimBoth l := by
  unfold jsTrimBoth
  match hT : (rtrimWs l).dropWhile jsWs with
  | [] => simp [rtrimWs, List.dropWhile]
  | g :: G =>
    have hTne : (rtrimWs l).dropWhile jsWs ≠ [] := by rw [hT]; simp
    have hlast : ∀ c, ((rtrimWs l).dropWhile jsWs).getLast? = some c → jsWs c = false := by
      intro c hc
      rw [getLast?_of_suffix (List.dropWhile_suffix jsWs) hTne] at hc
      exact rtrimWs_last l c hc
    rw [← hT, rtrimWs_eq_self _ hlast, List.dropWhile_idempotent]



/-- On a cleaned string (invariants as produced by one cleaning pass),
re-collapsing whitespace to spaces and re-splitting sentences reproduces the
string: step 3 applied to the whitespace-mapped string is the identity. -/
theorem splitSentences_reconstruct :
    ∀ (fuel : Nat) (y : List Char) (prev : Option Char),
      y.length < fuel →
      nlOkFrom prev y →
      noAdjWs y →
      noPunctSpace y →
      (∀ c ∈ y, jsWs c = true → c = ' ' ∨ c = '\n') →
      (∀ c, y.getLast? = some c → jsWs c = false) →
      y.head? ≠ some '\n' →
      splitSentencesGo fuel (y.map (fun c => if jsWs c then ' ' else c)) = y := by
  intro fuel
  induction fuel with
  | zero => intro y prev h; omega
  | succ fuel ih =>
    intro y prev hlen hnl hadj hps hws hlast hhd
    match y with
    | [] => rw [List.map_nil, splitSentencesGo_nil]
    | c :: t =>
      rw [List.map_cons]
      by_cases hc : jsWs c
      · have hc' : c = ' ' := by
          rcases hws c (by simp) hc with h | h
          · exact h
          · exact absurd (by simp [h]) hhd
        subst hc'
        rw [if_pos hc]
        have hsp : isPunct ' ' = false := by decide
        have hht : t.head? ≠ some '\n' := by
          intro hht
          match t with
          | d :: t' =>
            simp at hht
            subst hht
            exact (List.chain'_cons.mp hadj).1 ⟨hc, by decide⟩
        simp only [splitSentencesGo, hsp, Bool.false_eq_true, if_false]
        congr 1
        apply ih t (some ' ') (by simp at hlen; omega) (nlOkFrom_cons.mp hnl).2
          (List.chain'_cons'.mp hadj).2 (List.chain'_cons'.mp hps).2
          (fun x hx hw => hws x (by simp [hx]) hw) ?_ hht
        intro x hx
        match t with
        | [] => simp at hx
        | d :: t' => exact hlast x (by rw [← List.getLast?_cons_cons (a := ' ')]; exact hx)
      · rw [if_neg hc]
        by_cases hp : isPunct c
        · match t with
          | [] =>
            simp only [List.map_nil, splitSentencesGo, hp, if_true]
          | d :: t' =>
            rw [List.map_cons]
            by_cases hd : jsWs d
            · have hd' : d = '\n' := (List.chain'_cons.mp hps).1 hp hd
              subst hd'
              rw [if_pos hd]
              match t' with
              | [] =>
                have := hlast '\n' (by simp)
                rw [show jsWs '\n' = true by decide] at this
                simp at this
              | e :: t'' =>
                have he : jsWs e = false := by
                  by_cases hew : jsWs e
                  · exact absurd ⟨by decide, hew⟩
                      (List.chain'_cons.mp (List.chain'_cons.mp hadj).2).1
                  · simpa using hew
                rw [List.map_cons]
                have hsw : jsWs ' ' = true := by decide
                simp only [splitSentencesGo, hp, hsw, if_true, true_and]
                have hfe : (if jsWs e = true then ' ' else e) = e := by rw [he]; simp
                rw [hfe]
                have hdw : (e :: t''.map (fun c => if jsWs c = true then ' ' else c)).dropWhile
                    jsWs = e :: t''.map (fun c => if jsWs c = true then ' ' else c) :=
                  List.dropWhile_cons_of_neg (by simp [he])
                rw [hdw]
                congr 1
                congr 1
                have : e :: t''.map (fun c => if jsWs c = true then ' ' else c) =
                    (e :: t'').map (fun c => if jsWs c = true then ' ' else c) := by
                  rw [List.map_cons, hfe]
                rw [this]
                apply ih (e :: t'') (some '\n') (by simp at hlen ⊢; omega)
                  (nlOkFrom_cons.mp (nlOkFrom_cons.mp hnl).2).2
                  (List.chain'_cons'.mp (List.chain'_cons'.mp hadj).2).2
                  (List.chain'_cons'.mp (List.chain'_cons'.mp hps).2).2
                  (fun x hx hw => hws x (by simp at hx ⊢; tauto) hw) ?_
                  (by intro hcon; simp at hcon; subst hcon;
                      rw [show jsWs '\n' = true by decide] at he; simp at he)
                intro x hx
                exact hlast x (by rw [← List.getLast?_cons_cons (a := '\n'),
                  ← List.getLast?_cons_cons (a := c)]; exact hx)
            · rw [if_neg hd]
              have hfd : (if jsWs d = true then ' ' else d) = d := by
                rw [show jsWs d = false by simpa using hd]; simp
              simp only [splitSentencesGo, hp, if_true]
              rw [show jsWs d = false by simpa using hd]
              simp only [Bool.false_eq_true, if_false]
              congr 1
              have : d :: t'.map (fun c => if jsWs c = true then ' ' else c) =
                  (d :: t').map (fun c => if jsWs c = true then ' ' else c) := by
                rw [List.map_cons, hfd]
              rw [this]
              apply ih (d :: t') (some c) (by simp at hlen ⊢; omega)
                (nlOkFrom_cons.mp hnl).2
                (List.chain'_cons'.mp hadj).2 (List.chain'_cons'.mp hps).2
                (fun x hx hw => hws x (by simp [hx]) hw) ?_ (by simp; intro h; rw [h] at hd; exact hd (by decide))
              intro x hx
              exact hlast x (by rw [← List.getLast?_cons_cons (a := c)]; exact hx)
        · simp only [splitSentencesGo, hp, Bool.false_eq_true, if_false]
          have hht : t.head? ≠ some '\n' := by
            intro hht
            match t with
            | d :: t' =>
              simp at hht
              subst hht
              rcases (nlOkFrom_cons.mp (nlOkFrom_cons.mp hnl).2).1 rfl with ⟨q, hq, hpq⟩
              injection hq with hq'
              subst hq'
              exact absurd hpq (by simp [hp])
          congr 1
          apply ih t (some c) (by simp at hlen; omega) (nlOkFrom_cons.mp hnl).2
            (List.chain'_cons'.mp hadj).2 (List.chain'_cons'.mp hps).2
            (fun x hx hw => hws x (by simp [hx]) hw) ?_ hht
          intro x hx
          match t with
          | [] => simp at hx
          | d :: t' => exact hlast x (by rw [← List.getLast?_cons_cons (a := c)]; exact hx)



/-- Claim C7 (amended): the cleaner is idempotent on digit-free inputs.
(The counterexample shows it is not idempotent in general: the digit-run
removal step can leave a double space.) -/
theorem C7_idempotent_on_digit_free :
    ∀ s : String, (∀ c ∈ s.data, c.isDigit = false) →
      cleanText (cleanText s) = cleanText s := by
  intro s hdig
  have hA : ∀ c ∈ collapseNewlines s.data, isDigitChar c = false := fun c hc =>
    hdig c (mem_collapseNewlinesGo _ _ (by omega) hc)
  set A := collapseNewlines s.data with hAdef
  have hBmem : ∀ c ∈ collapseWhitespace A, c = ' ' ∨ (c ∈ A ∧ jsWs c = false) := fun c hc =>
    mem_collapseWhitespaceGo _ _ (by omega) hc
  set B := collapseWhitespace A with hBdef
  have hfB : ∀ c ∈ B, isDigitChar c = false := by
    intro c hc
    rcases hBmem c hc with h | ⟨h, _⟩
    · subst h; decide
    · exact hA c h
  have hBn : ∀ c ∈ B, jsWs c = true → c = ' ' := by
    intro c hc hws
    rcases hBmem c hc with h | ⟨_, h⟩
    · exact h
    · rw [h] at hws; simp at hws
  have hBnl : ∀ c ∈ B, c ≠ '\n' := by
    intro c hc hne
    subst hne
    have := hBn '\n' hc (by decide)
    simp at this
  have hBadj : noAdjWs B := collapseWhitespaceGo_noAdjWs _ _ (by omega)
  have hCmem : ∀ c ∈ splitSentences B, c = '\n' ∨ c ∈ B := fun c hc =>
    mem_splitSentencesGo _ _ (by omega) hc
  set C := splitSentences B with hCdef
  have hfC : ∀ c ∈ C, isDigitChar c = false := by
    intro c hc
    rcases hCmem c hc with h | h
    · subst h; decide
    · exact hfB c h
  have hCnl : nlOkFrom none C := splitSentencesGo_nlOkFrom _ _ (by omega) hBnl none
  have hCadj : noAdjWs C := splitSentencesGo_noAdjWs _ _ (by omega) hBadj
  have hCps : noPunctSpace C := splitSentencesGo_noPunctSpace _ _ (by omega)
  have hCws : ∀ c ∈ C, jsWs c = true → c = ' ' ∨ c = '\n' := by
    intro c hc hw
    rcases hCmem c hc with h | h
    · exact Or.inr h
    · exact Or.inl (hBn c h hw)
  have hCtab : ∀ c ∈ C, c ≠ '\t' ∧ c ≠ '\r' := by
    intro c hc
    rcases hCmem c hc with h | h
    · subst h; exact ⟨by decide, by decide⟩
    · constructor <;> intro hne <;> subst hne
      · have := hBn '\t' h (by decide); simp at this
      · have := hBn '\r' h (by decide); simp at this
  have hD : removeNumberRuns C = C :=
    removeRunsGo_id_of_no_digit _ none C (by omega) hfC
  have hE : removeTabsCRs C = C := removeTabsCRs_eq_self hCtab
  have hdata1 : (cleanText s).data = jsTrimBoth C := by
    show jsTrimBoth (removeTabsCRs (removeNumberRuns C)) = jsTrimBoth C
    rw [hD, hE]
  set y := jsTrimBoth C with hydef
  have hymem : ∀ c ∈ y, c ∈ C := fun c hc => mem_jsTrimBoth hc
  have hynl : nlOkFrom none y := nlOkFrom_jsTrimBoth hCnl
  obtain ⟨w, hw, hwws⟩ := rtrimWs_decomp C
  have hradj : noAdjWs (rtrimWs C) := chain'_of_pre ⟨w, hw⟩ hCadj
  have hyadj : noAdjWs y := chain'_of_suffix (List.dropWhile_suffix jsWs) hradj
  have hrps : noPunctSpace (rtrimWs C) := chain'_of_pre ⟨w, hw⟩ hCps
  have hyps : noPunctSpace y := chain'_of_suffix (List.dropWhile_suffix jsWs) hrps
  have hyws : ∀ c ∈ y, jsWs c = true → c = ' ' ∨ c = '\n' := fun c hc => hCws c (hymem c hc)
  have hylast : ∀ c, y.getLast? = some c → jsWs c = false := by
    intro c hc
    have hyne : y ≠ [] := by intro h; rw [h] at hc; simp at hc
    have hsuf := getLast?_of_suffix (s := y) (l := rtrimWs C)
      (List.dropWhile_suffix jsWs) hyne
    exact rtrimWs_last C c (hsuf ▸ hc)
  have hyhd : y.head? ≠ some '\n' := by
    intro h
    have := head_dropWhile_false (rtrimWs C) h
    rw [show jsWs '\n' = true by decide] at this
    simp at this
  have hydig : ∀ c ∈ y, isDigitChar c = false := fun c hc => hfC c (hymem c hc)
  have hytab : ∀ c ∈ y, c ≠ '\t' ∧ c ≠ '\r' := fun c hc => hCtab c (hymem c hc)
  have h1 : collapseNewlines y = y :=
    collapseNewlinesGo_id _ none y (by omega) hynl
  have h2 : collapseWhitespace y = y.map (fun c => if jsWs c then ' ' else c) :=
    collapseWhitespaceGo_map _ y (by omega) hyadj
  have h3 : splitSentences (y.map (fun c => if jsWs c then ' ' else c)) = y := by
    apply splitSentences_reconstruct _ y none ?_ hynl hyadj hyps hyws hylast hyhd
    rw [List.length_map]
    omega
  have h4 : removeNumberRuns y = y :=
    removeRunsGo_id_of_no_digit _ none y (by omega) hydig
  have h5 : removeTabsCRs y = y := removeTabsCRs_eq_self hytab
  have h6 : jsTrimBoth y = y := by rw [hydef]; exact jsTrimBoth_idem C
  have hdata2 : (cleanText (cleanText s)).data = y := by
    show jsTrimBoth (removeTabsCRs (removeNumberRuns (splitSentences
      (collapseWhitespace (collapseNewlines (cleanText s).data))))) = y
    rw [hdata1, h1, h2, h3, h4, h5, h6]
  apply String.ext
  rw [hdata2, hdata1]

/-- Witness for C7 on a concrete digit-free input. -/
theorem C7_witness :
    cleanText (cleanText "Hello   world. This is fine!  Bye.") =
      cleanText "Hello   world. This is fine!  Bye." :=
  C7_idempotent_on_digit_free "Hello   world. This is fine!  Bye." (by decide)

/-! ## Lemmas about the JSON parser: whitespace, numbers -/

/-- `List.isPrefixOf` agrees with the prefix relation. -/
theorem isPre_iff {l l' : List Char} : l.isPrefixOf l' = true ↔ l <+: l' :=
  List.isPrefixOf_iff_prefix

/-- JSON whitespace is JavaScript whitespace. -/
theorem jsonWs_jsWs {c : Char} (h : jsonWs c = true) : jsWs c = true := by
  simp only [jsonWs, Bool.or_eq_true, beq_iff_eq] at h
  rcases h with ((h | h) | h) | h <;> subst h <;> decide

/-- Digits are not JavaScript whitespace. -/
theorem digit_not_jsWs {c : Char} (h : c.isDigit = true) : jsWs c = false := by
  simp only [Char.isDigit, Bool.and_eq_true, decide_eq_true_eq] at h
  rcases h with ⟨h1, h2⟩
  have hv : 48 ≤ c.toNat ∧ c.toNat ≤ 57 := by
    constructor
    · exact h1
    · exact h2
  have hne : ∀ (d : Char), d.toNat < 48 ∨ 57 < d.toNat → (c == d) = false := by
    intro d hd
    apply beq_eq_false_iff_ne.mpr
    intro he
    subst he
    omega
  simp only [jsWs]
  rw [hne ' ' (by decide), hne '\t' (by decide), hne '\n' (by decide),
    hne '\r' (by decide), hne '\x0b' (by decide), hne '\x0c' (by decide),
    hne '\u00a0' (by decide), hne '\u1680' (by decide), hne '\u2028' (by decide),
    hne '\u2029' (by decide), hne '\u202f' (by decide), hne '\u205f' (by decide),
    hne '\u3000' (by decide), hne '\ufeff' (by decide)]
  have : (decide (8192 ≤ c.toNat)) = false := by
    apply decide_eq_false
    omega
  rw [this]
  simp

/-- Digits are not JSON whitespace. -/
theorem digit_not_jsonWs {c : Char} (h : c.isDigit = true) : jsonWs c = false := by
  by_cases hj : jsonWs c
  · have := jsonWs_jsWs hj
    rw [digit_not_jsWs h] at this
    simp at this
  · simpa using hj

/-- Dropping a whitespace block from the front. -/
theorem dropWhile_append_all {p : Char → Bool} :
    ∀ {w l : List Char}, (∀ c ∈ w, p c = true) → (w ++ l).dropWhile p = l.dropWhile p := by
  intro w
  induction w with
  | nil => intro l _; rfl
  | cons c w' ih =>
    intro l hw
    rw [List.cons_append, List.dropWhile_cons_of_pos (hw c (by simp))]
    exact ih (fun x hx => hw x (by simp [hx]))

/-- `dropWhile` is the identity when the head fails the predicate. -/
theorem dropWhile_eq_self_head {p : Char → Bool} {l : List Char}
    (h : ∀ c, l.head? = some c → p c = false) : l.dropWhile p = l := by
  match l with
  | [] => rfl
  | c :: t => exact List.dropWhile_cons_of_neg (by simp [h c rfl])

/-- `takeWhile`/`dropWhile` of a digit block followed by a non-digit. -/
theorem spanDigits_exact {ds t : List Char}
    (hds : ∀ c ∈ ds, c.isDigit = true)
    (ht : ∀ c, t.head? = some c → c.isDigit = false) :
    spanDigits (ds ++ t) = (ds, t) := by
  unfold spanDigits
  induction ds with
  | nil =>
    simp only [List.nil_append]
    have h1 : t.takeWhile Char.isDigit = [] := by
      match t with
      | [] => rfl
      | c :: t' => exact List.takeWhile_cons_of_neg (by simp [ht c rfl])
    have h2 : t.dropWhile Char.isDigit = t :=
      dropWhile_eq_self_head (fun c hc => ht c hc)
    rw [h1, h2]
  | cons d ds' ih =>
    have hd : d.isDigit = true := hds d (by simp)
    simp only [List.cons_append, List.takeWhile_cons_of_pos hd,
      List.dropWhile_cons_of_pos hd]
    have := ih (fun x hx => hds x (by simp [hx]))
    simp only [Prod.mk.injEq] at this ⊢
    exact ⟨by rw [this.1], this.2⟩



/-- JSON whitespace characters are not digits. -/
theorem jsonWs_not_digit {c : Char} (h : jsonWs c = true) : c.isDigit = false := by
  simp only [jsonWs, Bool.or_eq_true, beq_iff_eq] at h
  rcases h with ((h | h) | h) | h <;> subst h <;> decide

/-- Heads allowed after a value are not digits. -/
theorem numStopper_not_digit {t : List Char} (h : numStopper t) :
    ∀ x, t.head? = some x → x.isDigit = false := by
  intro x hx
  rcases h x hx with hw | hc | hc | hc
  · exact jsonWs_not_digit hw
  · subst hc; decide
  · subst hc; decide
  · subst hc; decide

/-- Structure of a successful integer-part parse. -/
theorem parseIntPart_decomp {l ip r : List Char} (h : parseIntPart l = some (ip, r)) :
    l = ip ++ r ∧ ip ≠ [] ∧ (∀ c ∈ ip, c.isDigit = true) := by
  match l with
  | [] => simp [parseIntPart] at h
  | c :: t =>
    simp only [parseIntPart] at h
    by_cases hc : c == '0'
    · rw [if_pos hc] at h
      simp at h
      rcases h with ⟨h1, h2⟩
      subst h1; subst h2
      have : c = '0' := by simpa using hc
      subst this
      exact ⟨by simp, by simp, by simp⟩
    · rw [if_neg hc] at h
      by_cases hd : c.isDigit
      · rw [if_pos hd] at h
        simp at h
        rcases h with ⟨h1, h2⟩
        subst h1; subst h2
        refine ⟨?_, by simp, ?_⟩
        · have := List.takeWhile_append_dropWhile (p := Char.isDigit) (l := t)
          simp only [spanDigits]
          rw [List.cons_append, this]
        · intro x hx
          rcases List.mem_cons.mp hx with h | h
          · subst h; exact hd
          · exact List.mem_takeWhile_imp h
      · rw [if_neg hd] at h
        simp at h

/-- Replaying the integer part before a non-digit continuation. -/
theorem parseIntPart_ext {l ip r : List Char} (h : parseIntPart l = some (ip, r)) :
    ∀ t, (∀ x, t.head? = some x → x.isDigit = false) →
      parseIntPart (ip ++ t) = some (ip, t) := by
  intro t ht
  match l with
  | [] => simp [parseIntPart] at h
  | c :: u =>
    simp only [parseIntPart] at h
    by_cases hc : c == '0'
    · rw [if_pos hc] at h
      simp at h
      rcases h with ⟨h1, _⟩
      subst h1
      have : c = '0' := by simpa using hc
      subst this
      simp [parseIntPart]
    · rw [if_neg hc] at h
      by_cases hd : c.isDigit
      · rw [if_pos hd] at h
        simp at h
        rcases h with ⟨h1, _⟩
        subst h1
        rw [List.cons_append]
        simp only [parseIntPart]
        rw [if_neg hc, if_pos hd]
        have hspan : spanDigits ((spanDigits u).1 ++ t) = ((spanDigits u).1, t) :=
          spanDigits_exact (fun x hx => List.mem_takeWhile_imp hx) ht
        rw [hspan]
      · rw [if_neg hd] at h
        simp at h

/-- Structure of a successful fraction-part parse. -/
theorem parseFracPart_decomp {l fp r : List Char} (h : parseFracPart l = some (fp, r)) :
    l = fp ++ r ∧
      ((fp = [] ∧ r = l ∧ ∀ x, l.head? = some x → x ≠ '.') ∨
       (∃ ds, fp = '.' :: ds ∧ ds ≠ [] ∧ ∀ c ∈ ds, c.isDigit = true)) := by
  unfold parseFracPart at h
  split at h
  · next t =>
    by_cases he : (spanDigits t).1.isEmpty
    · rw [if_pos he] at h; simp at h
    · rw [if_neg he] at h
      simp at h
      rcases h with ⟨h1, h2⟩
      subst h1; subst h2
      refine ⟨?_, Or.inr ⟨(spanDigits t).1, rfl, by simpa using he,
        fun x hx => List.mem_takeWhile_imp hx⟩⟩
      have := List.takeWhile_append_dropWhile (p := Char.isDigit) (l := t)
      simp only [spanDigits]
      rw [List.cons_append, this]
  · next hne =>
    simp at h
    rcases h with ⟨h1, h2⟩
    subst h1; subst h2
    refine ⟨by simp, Or.inl ⟨rfl, rfl, ?_⟩⟩
    intro x hx hdot
    subst hdot
    match l, hx, hne with
    | c :: t, hx, hne =>
      simp at hx
      subst hx
      exact hne t rfl



/-- Heads allowed after a value are not number-extending characters. -/
theorem numStopper_head_ne {t : List Char} (h : numStopper t) :
    ∀ x, t.head? = some x → x ≠ '.' ∧ x ≠ 'e' ∧ x ≠ 'E' := by
  intro x hx
  rcases h x hx with hw | hc | hc | hc
  · refine ⟨?_, ?_, ?_⟩ <;> intro he <;> subst he <;> exact absurd hw (by decide)
  · subst hc; exact ⟨by decide, by decide, by decide⟩
  · subst hc; exact ⟨by decide, by decide, by decide⟩
  · subst hc; exact ⟨by decide, by decide, by decide⟩

/-- Replaying the fraction part before a suitable continuation. -/
theorem parseFracPart_ext {l fp r : List Char} (h : parseFracPart l = some (fp, r)) :
    ∀ t, (∀ x, t.head? = some x → x.isDigit = false) →
      (fp = [] → ∀ x, t.head? = some x → x ≠ '.') →
      parseFracPart (fp ++ t) = some (fp, t) := by
  intro t htd htdot
  rcases (parseFracPart_decomp h).2 with ⟨hfp, _, _⟩ | ⟨ds, hfp, hne, hds⟩
  · subst hfp
    simp only [List.nil_append]
    unfold parseFracPart
    split
    · next u =>
      exact absurd rfl (htdot rfl '.' rfl)
    · rfl
  · subst hfp
    rw [List.cons_append]
    have hspan : spanDigits (ds ++ t) = (ds, t) := spanDigits_exact hds htd
    show (if (spanDigits (ds ++ t)).1.isEmpty = true then none
      else some ('.' :: (spanDigits (ds ++ t)).1, (spanDigits (ds ++ t)).2)) =
        some ('.' :: ds, t)
    rw [hspan]
    simp [List.isEmpty_iff, hne]

/-- Structure of a successful exponent-part parse. -/
theorem parseExpPart_decomp {l ep r : List Char} (h : parseExpPart l = some (ep, r)) :
    l = ep ++ r ∧
      ((ep = [] ∧ r = l ∧ ∀ x, l.head? = some x → x ≠ 'e' ∧ x ≠ 'E') ∨
       (∃ e sgn ds, ep = e :: (sgn ++ ds) ∧ (e = 'e' ∨ e = 'E') ∧
         (sgn = [] ∨ sgn = ['+'] ∨ sgn = ['-']) ∧ ds ≠ [] ∧
         ∀ c ∈ ds, c.isDigit = true)) := by
  match l with
  | [] =>
    simp only [parseExpPart] at h
    simp at h
    rcases h with ⟨h1, h2⟩
    subst h1; subst h2
    exact ⟨by simp, Or.inl ⟨rfl, rfl, by simp⟩⟩
  | c :: t =>
    simp only [parseExpPart] at h
    by_cases he : (c == 'e' || c == 'E') = true
    · rw [if_pos he] at h
      have he' : c = 'e' ∨ c = 'E' := by
        simp only [Bool.or_eq_true, beq_iff_eq] at he
        exact he
      split at h
      · next u =>
        by_cases hemp : (spanDigits u).1.isEmpty
        · rw [if_pos hemp] at h; simp at h
        · rw [if_neg hemp] at h
          simp at h
          rcases h with ⟨h1, h2⟩
          subst h1; subst h2
          refine ⟨?_, Or.inr ⟨c, ['+'], (spanDigits u).1, by simp, he', by simp,
            by simpa using hemp, fun x hx => List.mem_takeWhile_imp hx⟩⟩
          have := List.takeWhile_append_dropWhile (p := Char.isDigit) (l := u)
          simp only [spanDigits]
          rw [List.cons_append, List.cons_append, this]
      · next u =>
        by_cases hemp : (spanDigits u).1.isEmpty
        · rw [if_pos hemp] at h; simp at h
        · rw [if_neg hemp] at h
          simp at h
          rcases h with ⟨h1, h2⟩
          subst h1; subst h2
          refine ⟨?_, Or.inr ⟨c, ['-'], (spanDigits u).1, by simp, he', by simp,
            by simpa using hemp, fun x hx => List.mem_takeWhile_imp hx⟩⟩
          have := List.takeWhile_append_dropWhile (p := Char.isDigit) (l := u)
          simp only [spanDigits]
          rw [List.cons_append, List.cons_append, this]
      · next hne1 hne2 =>
        by_cases hemp : (spanDigits t).1.isEmpty
        · rw [if_pos hemp] at h; simp at h
        · rw [if_neg hemp] at h
          simp at h
          rcases h with ⟨h1, h2⟩
          subst h1; subst h2
          refine ⟨?_, Or.inr ⟨c, [], (spanDigits t).1, by simp, he', by simp,
            by simpa using hemp, fun x hx => List.mem_takeWhile_imp hx⟩⟩
          have := List.takeWhile_append_dropWhile (p := Char.isDigit) (l := t)
          simp only [spanDigits]
          rw [List.cons_append, this]
    · rw [if_neg he] at h
      simp at h
      rcases h with ⟨h1, h2⟩
      subst h1; subst h2
      refine ⟨by simp, Or.inl ⟨rfl, rfl, ?_⟩⟩
      intro x hx
      simp at hx
      subst hx
      simp only [Bool.or_eq_true, beq_iff_eq] at he
      push_neg at he
      exact he



theorem parseExpPart_cons (c : Char) (t : List Char) :
    parseExpPart (c :: t) =
      if (c == 'e' || c == 'E') = true then
        match t with
        | '+' :: u =>
          if (spanDigits u).1.isEmpty then none
          else some (c :: '+' :: (spanDigits u).1, (spanDigits u).2)
        | '-' :: u =>
          if (spanDigits u).1.isEmpty then none
          else some (c :: '-' :: (spanDigits u).1, (spanDigits u).2)
        | u =>
          if (spanDigits u).1.isEmpty then none
          else some (c :: (spanDigits u).1, (spanDigits u).2)
      else some ([], c :: t) := rfl

/-- Replaying the exponent part before a suitable continuation. -/
theorem parseExpPart_ext {l ep r : List Char} (h : parseExpPart l = some (ep, r)) :
    ∀ t, (∀ x, t.head? = some x → x.isDigit = false) →
      (ep = [] → ∀ x, t.head? = some x → x ≠ 'e' ∧ x ≠ 'E') →
      parseExpPart (ep ++ t) = some (ep, t) := by
  intro t htd hte
  rcases (parseExpPart_decomp h).2 with ⟨hep, _, _⟩ | ⟨e, sgn, ds, hep, he', hsgn, hne, hds⟩
  · subst hep
    simp only [List.nil_append]
    match t with
    | [] => rfl
    | c :: t' =>
      rcases hte rfl c rfl with ⟨h1, h2⟩
      rw [parseExpPart_cons, if_neg (by simp [h1, h2])]
  · subst hep
    have heb : (e == 'e' || e == 'E') = true := by
      rcases he' with h | h <;> subst h <;> decide
    rw [List.cons_append, parseExpPart_cons, if_pos heb]
    have hspan : spanDigits (ds ++ t) = (ds, t) := spanDigits_exact hds htd
    rcases hsgn with hs | hs | hs <;> subst hs
    · simp only [List.nil_append]
      match hds2 : ds, hne with
      | d :: ds', _ =>
        have hd : d.isDigit = true := hds d (by simp)
        have hdp : d ≠ '+' := by intro h'; subst h'; exact absurd hd (by decide)
        have hdm : d ≠ '-' := by intro h'; subst h'; exact absurd hd (by decide)
        rw [List.cons_append]
        split
        · next u heq =>
          simp at heq
          exact absurd heq.1 hdp
        · next u heq =>
          simp at heq
          exact absurd heq.1 hdm
        · next u hne1 hne2 =>
          rw [List.cons_append] at hspan
          rw [hspan]
          simp [List.isEmpty_iff]
    · rw [List.cons_append, List.nil_append]
      show (if (spanDigits (ds ++ t)).1.isEmpty then none
        else some (e :: '+' :: (spanDigits (ds ++ t)).1, (spanDigits (ds ++ t)).2)) =
          some (e :: '+' :: ds, t)
      rw [hspan]
      simp [List.isEmpty_iff, hne]
    · rw [List.cons_append, List.nil_append]
      show (if (spanDigits (ds ++ t)).1.isEmpty then none
        else some (e :: '-' :: (spanDigits (ds ++ t)).1, (spanDigits (ds ++ t)).2)) =
          some (e :: '-' :: ds, t)
      rw [hspan]
      simp [List.isEmpty_iff, hne]



theorem last_digit_of_append {pre ds : List Char} (hne : ds ≠ [])
    (hds : ∀ c ∈ ds, c.isDigit = true) :
    ∃ l₀ d, pre ++ ds = l₀ ++ [d] ∧ d.isDigit = true := by
  obtain ⟨ds₀, hds₀⟩ := exists_append_getLastD ds '0' hne
  have hmem : ds.getLastD '0' ∈ ds := by
    rw [List.getLastD_eq_getLast?, List.getLast?_eq_getLast _ hne, Option.getD_some]
    exact List.getLast_mem hne
  refine ⟨pre ++ ds₀, ds.getLastD '0', ?_, hds _ hmem⟩
  conv_lhs => rw [hds₀]
  rw [List.append_assoc]

/-- Structure of a successful number parse: the input splits as lexeme and
rest, the lexeme ends with a digit, and the input starts with `-` or a digit. -/
theorem parseNum_decomp {l lex r : List Char} (h : parseNum l = some (lex, r)) :
    l = lex ++ r ∧ (∃ lex₀ d, lex = lex₀ ++ [d] ∧ d.isDigit = true) ∧
      (∃ hd tl, l = hd :: tl ∧ (hd = '-' ∨ hd.isDigit = true)) := by
  unfold parseNum at h
  split at h
  · next t =>
    split at h
    · simp at h
    · next ip r1 heq1 =>
      split at h
      · simp at h
      · next fp r2 heq2 =>
        split at h
        · simp at h
        · next ep r3 heq3 =>
          simp at h
          rcases h with ⟨h1, h2⟩
          subst h1; subst h2
          rcases parseIntPart_decomp heq1 with ⟨hi1, hine, hidig⟩
          rcases parseFracPart_decomp heq2 with ⟨hf1, hfcases⟩
          rcases parseExpPart_decomp heq3 with ⟨he1, hecases⟩
          refine ⟨by rw [hi1, hf1, he1]; simp [List.append_assoc], ?_,
            ⟨'-', t, rfl, Or.inl rfl⟩⟩
          rcases hecases with ⟨hep, _, _⟩ | ⟨e, sgn, ds, hep, _, _, hdsne, hdsdig⟩
          · subst hep
            rcases hfcases with ⟨hfp, _, _⟩ | ⟨ds, hfp, hdsne, hdsdig⟩
            · subst hfp
              simp only [List.append_nil]
              rcases @last_digit_of_append ['-'] _ hine hidig with ⟨l₀, d, hld, hd⟩
              exact ⟨l₀, d, by rw [← hld]; rfl, hd⟩
            · subst hfp
              rcases @last_digit_of_append ('-' :: ip ++ ['.']) _ hdsne hdsdig
                with ⟨l₀, d, hld, hd⟩
              refine ⟨l₀, d, ?_, hd⟩
              rw [← hld]
              simp
          · subst hep
            rcases @last_digit_of_append ('-' :: ip ++ fp ++ e :: sgn) _ hdsne hdsdig
              with ⟨l₀, d, hld, hd⟩
            refine ⟨l₀, d, ?_, hd⟩
            rw [← hld]
            simp
  · next hnneg =>
    split at h
    · simp at h
    · next ip r1 heq1 =>
      split at h
      · simp at h
      · next fp r2 heq2 =>
        split at h
        · simp at h
        · next ep r3 heq3 =>
          simp at h
          rcases h with ⟨h1, h2⟩
          subst h1; subst h2
          rcases parseIntPart_decomp heq1 with ⟨hi1, hine, hidig⟩
          rcases parseFracPart_decomp heq2 with ⟨hf1, hfcases⟩
          rcases parseExpPart_decomp heq3 with ⟨he1, hecases⟩
          have hhead : ∃ hd tl, l = hd :: tl ∧ (hd = '-' ∨ hd.isDigit = true) := by
            match hip : ip, hine with
            | c :: ip', _ =>
              refine ⟨c, ip' ++ r1, ?_, Or.inr (hidig c (by simp))⟩
              rw [hi1]
              simp
          refine ⟨by rw [hi1, hf1, he1]; simp [List.append_assoc], ?_, hhead⟩
          rcases hecases with ⟨hep, _, _⟩ | ⟨e, sgn, ds, hep, _, _, hdsne, hdsdig⟩
          · subst hep
            rcases hfcases with ⟨hfp, _, _⟩ | ⟨ds, hfp, hdsne, hdsdig⟩
            · subst hfp
              simp only [List.append_nil]
              rcases @last_digit_of_append ([] : List Char) _ hine hidig
                with ⟨l₀, d, hld, hd⟩
              exact ⟨l₀, d, by rw [← hld]; rfl, hd⟩
            · subst hfp
              rcases @last_digit_of_append (ip ++ ['.']) _ hdsne hdsdig
                with ⟨l₀, d, hld, hd⟩
              refine ⟨l₀, d, ?_, hd⟩
              rw [← hld]
              simp
          · subst hep
            rcases @last_digit_of_append (ip ++ fp ++ e :: sgn) _ hdsne hdsdig
              with ⟨l₀, d, hld, hd⟩
            refine ⟨l₀, d, ?_, hd⟩
            rw [← hld]
            simp



/-- Replaying a number parse before a value-stopper continuation. -/
theorem parseNum_ext {l lex r : List Char} (h : parseNum l = some (lex, r)) :
    ∀ t, numStopper t → parseNum (lex ++ t) = some (lex, t) := by
  intro t hst
  have htd : ∀ x, t.head? = some x → x.isDigit = false := numStopper_not_digit hst
  have htne := numStopper_head_ne hst
  unfold parseNum at h
  split at h
  · next u =>
    split at h
    · simp at h
    · next ip r1 heq1 =>
      split at h
      · simp at h
      · next fp r2 heq2 =>
        split at h
        · simp at h
        · next ep r3 heq3 =>
          simp at h
          rcases h with ⟨h1, h2⟩
          subst h1; subst h2
          have hext3 := parseExpPart_ext heq3 t htd
            (fun _ x hx => ⟨(htne x hx).2.1, (htne x hx).2.2⟩)
          have h2d : ∀ x, (ep ++ t).head? = some x → x.isDigit = false := by
            rcases (parseExpPart_decomp heq3).2 with ⟨hep, _, _⟩ |
              ⟨e, sgn, ds, hep, he', _, _, _⟩
            · subst hep; simpa using htd
            · subst hep
              intro x hx
              simp at hx
              subst hx
              rcases he' with h' | h' <;> subst h' <;> decide
          have h2dot : fp = [] → ∀ x, (ep ++ t).head? = some x → x ≠ '.' := by
            intro _
            rcases (parseExpPart_decomp heq3).2 with ⟨hep, _, _⟩ |
              ⟨e, sgn, ds, hep, he', _, _, _⟩
            · subst hep
              intro x hx
              exact (htne x (by simpa using hx)).1
            · subst hep
              intro x hx
              simp at hx
              subst hx
              rcases he' with h' | h' <;> subst h' <;> decide
          have hext2 := parseFracPart_ext heq2 (ep ++ t) h2d h2dot
          have h1d : ∀ x, (fp ++ (ep ++ t)).head? = some x → x.isDigit = false := by
            rcases (parseFracPart_decomp heq2).2 with ⟨hfp, _, _⟩ |
              ⟨ds, hfp, _, _⟩
            · subst hfp; simpa using h2d
            · subst hfp
              intro x hx
              simp at hx
              subst hx
              decide
          have hext1 := parseIntPart_ext heq1 (fp ++ (ep ++ t)) h1d
          show parseNum ('-' :: (ip ++ (fp ++ ep)) ++ t) = some ('-' :: (ip ++ (fp ++ ep)), t)
          rw [List.cons_append]
          rw [show ((ip ++ (fp ++ ep)) ++ t : List Char) = ip ++ (fp ++ (ep ++ t))
            by simp [List.append_assoc]]
          show (match parseIntPart (ip ++ (fp ++ (ep ++ t))) with
            | none => none
            | some (ip1, q1) =>
              match parseFracPart q1 with
              | none => none
              | some (fp1, q2) =>
                match parseExpPart q2 with
                | none => none
                | some (ep1, q3) => some ('-' :: (ip1 ++ (fp1 ++ ep1)), q3)) =
            some ('-' :: (ip ++ (fp ++ ep)), t)
          rw [hext1]
          show (match parseFracPart (fp ++ (ep ++ t)) with
            | none => none
            | some (fp1, q2) =>
              match parseExpPart q2 with
              | none => none
              | some (ep1, q3) => some ('-' :: (ip ++ (fp1 ++ ep1)), q3)) =
            some ('-' :: (ip ++ (fp ++ ep)), t)
          rw [hext2]
          show (match parseExpPart (ep ++ t) with
            | none => none
            | some (ep1, q3) => some ('-' :: (ip ++ (fp ++ ep1)), q3)) =
            some ('-' :: (ip ++ (fp ++ ep)), t)
          rw [hext3]
  · next hnneg =>
    split at h
    · simp at h
    · next ip r1 heq1 =>
      split at h
      · simp at h
      · next fp r2 heq2 =>
        split at h
        · simp at h
        · next ep r3 heq3 =>
          simp at h
          rcases h with ⟨h1, h2⟩
          subst h1; subst h2
          have hext3 := parseExpPart_ext heq3 t htd
            (fun _ x hx => ⟨(htne x hx).2.1, (htne x hx).2.2⟩)
          have h2d : ∀ x, (ep ++ t).head? = some x → x.isDigit = false := by
            rcases (parseExpPart_decomp heq3).2 with ⟨hep, _, _⟩ |
              ⟨e, sgn, ds, hep, he', _, _, _⟩
            · subst hep; simpa using htd
            · subst hep
              intro x hx
              simp at hx
              subst hx
              rcases he' with h' | h' <;> subst h' <;> decide
          have h2dot : fp = [] → ∀ x, (ep ++ t).head? = some x → x ≠ '.' := by
            intro _
            rcases (parseExpPart_decomp heq3).2 with ⟨hep, _, _⟩ |
              ⟨e, sgn, ds, hep, he', _, _, _⟩
            · subst hep
              intro x hx
              exact (htne x (by simpa using hx)).1
            · subst hep
              intro x hx
              simp at hx
              subst hx
              rcases he' with h' | h' <;> subst h' <;> decide
          have hext2 := parseFracPart_ext heq2 (ep ++ t) h2d h2dot
          have h1d : ∀ x, (fp ++ (ep ++ t)).head? = some x → x.isDigit = false := by
            rcases (parseFracPart_decomp heq2).2 with ⟨hfp, _, _⟩ |
              ⟨ds, hfp, _, _⟩
            · subst hfp; simpa using h2d
            · subst hfp
              intro x hx
              simp at hx
              subst hx
              decide
          have hext1 := parseIntPart_ext heq1 (fp ++ (ep ++ t)) h1d
          rcases parseIntPart_decomp heq1 with ⟨_, hine, hidig⟩
          unfold parseNum
          split
          · next u hequ =>
            match hip : ip, hine with
            | c :: ip', _ =>
              simp at hequ
              have hc := hidig c (by simp)
              rw [hequ.1] at hc
              exact absurd hc (by decide)
          · rw [show ((ip ++ (fp ++ ep)) ++ t : List Char) = ip ++ (fp ++ (ep ++ t))
              by simp [List.append_assoc]]
            show (match parseIntPart (ip ++ (fp ++ (ep ++ t))) with
              | none => none
              | some (ip1, q1) =>
                match parseFracPart q1 with
                | none => none
                | some (fp1, q2) =>
                  match parseExpPart q2 with
                  | none => none
                  | some (ep1, q3) => some (ip1 ++ (fp1 ++ ep1), q3)) =
              some (ip ++ (fp ++ ep), t)
            rw [hext1]
            show (match parseFracPart (fp ++ (ep ++ t)) with
              | none => none
              | some (fp1, q2) =>
                match parseExpPart q2 with
                | none => none
                | some (ep1, q3) => some (ip ++ (fp1 ++ ep1), q3)) =
              some (ip ++ (fp ++ ep), t)
            rw [hext2]
            show (match parseExpPart (ep ++ t) with
              | none => none
              | some (ep1, q3) => some (ip ++ (fp ++ ep1), q3)) =
              some (ip ++ (fp ++ ep), t)
            rw [hext3]


/-! ## Lemmas about the JSON parser: strings, step equations -/

/-- Unfolding equation for the string-body scanner on a cons cell. -/
theorem strChars_cons (c : Char) (t : List Char) :
    strChars (c :: t) =
    (if c == '"' then some ([], t)
    else if c == '\\' then
      match t with
      | [] => none
      | e :: u =>
        if e == '"' then (strChars u).map (fun p => ('"' :: p.1, p.2))
        else if e == '\\' then (strChars u).map (fun p => ('\\' :: p.1, p.2))
        else if e == '/' then (strChars u).map (fun p => ('/' :: p.1, p.2))
        else if e == 'b' then (strChars u).map (fun p => ('\x08' :: p.1, p.2))
        else if e == 'f' then (strChars u).map (fun p => ('\x0c' :: p.1, p.2))
        else if e == 'n' then (strChars u).map (fun p => ('\n' :: p.1, p.2))
        else if e == 'r' then (strChars u).map (fun p => ('\r' :: p.1, p.2))
        else if e == 't' then (strChars u).map (fun p => ('\t' :: p.1, p.2))
        else if e == 'u' then
          match u with
          | h1 :: h2 :: h3 :: h4 :: u' =>
            if isHexDigit h1 && isHexDigit h2 && isHexDigit h3 && isHexDigit h4 then
              (strChars u').map (fun p =>
                (Char.ofNat (hexVal h1 * 4096 + hexVal h2 * 256 + hexVal h3 * 16 + hexVal h4)
                  :: p.1, p.2))
            else none
          | _ => none
        else none
    else if c.toNat < 32 then none
    else (strChars t).map (fun p => (c :: p.1, p.2))) := by
  conv_lhs => rw [strChars.eq_def]

/-- A successful string-body parse consumes everything up to a closing quote,
and replays identically whatever follows that quote. -/
theorem strChars_spec : ∀ (n : Nat) (l s r : List Char), l.length ≤ n →
    strChars l = some (s, r) →
    ∃ c₀, l = c₀ ++ '"' :: r ∧ ∀ t, strChars (c₀ ++ '"' :: t) = some (s, t) := by
  intro n
  induction n with
  | zero =>
    intro l s r hlen h
    match l with
    | [] => simp [strChars] at h
    | c :: u => simp at hlen
  | succ n ih =>
    intro l s r hlen h
    match l with
    | [] => simp [strChars] at h
    | c :: u =>
      rw [strChars_cons] at h
      by_cases hq : c == '"'
      · rw [if_pos hq] at h
        simp at h
        rcases h with ⟨h1, h2⟩
        subst h1; subst h2
        have hceq : c = '"' := by simpa using hq
        subst hceq
        refine ⟨[], by simp, ?_⟩
        intro t
        simp [strChars_cons]
      · rw [if_neg hq] at h
        by_cases hb : c == '\\'
        · rw [if_pos hb] at h
          have hceq : c = '\\' := by simpa using hb
          subst hceq
          split at h
          · simp at h
          · next e u' =>
            by_cases he : e == '\"'
            · rw [if_pos he] at h
              rcases Option.map_eq_some'.mp h with ⟨⟨s', r'⟩, hrec, heq⟩
              simp at heq
              rcases heq with ⟨hs, hr⟩
              subst hs; subst hr
              rcases ih u' s' r' (by simp at hlen; omega) hrec with ⟨c₁, hd, hx⟩
              refine ⟨'\\' :: e :: c₁, by simp [hd], ?_⟩
              intro t
              have hee : e = '\"' := by simpa using he
              subst hee
              simp only [List.cons_append]
              simp [strChars_cons, hx t]
            · rw [if_neg he] at h
              by_cases he2 : e == '\\'
              · rw [if_pos he2] at h
                rcases Option.map_eq_some'.mp h with ⟨⟨s', r'⟩, hrec, heq⟩
                simp at heq
                rcases heq with ⟨hs, hr⟩
                subst hs; subst hr
                rcases ih u' s' r' (by simp at hlen; omega) hrec with ⟨c₁, hd, hx⟩
                refine ⟨'\\' :: e :: c₁, by simp [hd], ?_⟩
                intro t
                have hee : e = '\\' := by simpa using he2
                subst hee
                simp only [List.cons_append]
                simp [strChars_cons, hx t]
              · rw [if_neg he2] at h
                by_cases he3 : e == '/'
                · rw [if_pos he3] at h
                  rcases Option.map_eq_some'.mp h with ⟨⟨s', r'⟩, hrec, heq⟩
                  simp at heq
                  rcases heq with ⟨hs, hr⟩
                  subst hs; subst hr
                  rcases ih u' s' r' (by simp at hlen; omega) hrec with ⟨c₁, hd, hx⟩
                  refine ⟨'\\' :: e :: c₁, by simp [hd], ?_⟩
                  intro t
                  have hee : e = '/' := by simpa using he3
                  subst hee
                  simp only [List.cons_append]
                  simp [strChars_cons, hx t]
                · rw [if_neg he3] at h
                  by_cases he4 : e == 'b'
                  · rw [if_pos he4] at h
                    rcases Option.map_eq_some'.mp h with ⟨⟨s', r'⟩, hrec, heq⟩
                    simp at heq
                    rcases heq with ⟨hs, hr⟩
                    subst hs; subst hr
                    rcases ih u' s' r' (by simp at hlen; omega) hrec with ⟨c₁, hd, hx⟩
                    refine ⟨'\\' :: e :: c₁, by simp [hd], ?_⟩
                    intro t
                    have hee : e = 'b' := by simpa using he4
                    subst hee
                    simp only [List.cons_append]
                    simp [strChars_cons, hx t]
                  · rw [if_neg he4] at h
                    by_cases he5 : e == 'f'
                    · rw [if_pos he5] at h
                      rcases Option.map_eq_some'.mp h with ⟨⟨s', r'⟩, hrec, heq⟩
                      simp at heq
                      rcases heq with ⟨hs, hr⟩
                      subst hs; subst hr
                      rcases ih u' s' r' (by simp at hlen; omega) hrec with ⟨c₁, hd, hx⟩
                      refine ⟨'\\' :: e :: c₁, by simp [hd], ?_⟩
                      intro t
                      have hee : e = 'f' := by simpa using he5
                      subst hee
                      simp only [List.cons_append]
                      simp [strChars_cons, hx t]
                    · rw [if_neg he5] at h
                      by_cases he6 : e == 'n'
                      · rw [if_pos he6] at h
                        rcases Option.map_eq_some'.mp h with ⟨⟨s', r'⟩, hrec, heq⟩
                        simp at heq
                        rcases heq with ⟨hs, hr⟩
                        subst hs; subst hr
                        rcases ih u' s' r' (by simp at hlen; omega) hrec with ⟨c₁, hd, hx⟩
                        refine ⟨'\\' :: e :: c₁, by simp [hd], ?_⟩
                        intro t
                        have hee : e = 'n' := by simpa using he6
                        subst hee
                        simp only [List.cons_append]
                        simp [strChars_cons, hx t]
                      · rw [if_neg he6] at h
                        by_cases he7 : e == 'r'
                        · rw [if_pos he7] at h
                          rcases Option.map_eq_some'.mp h with ⟨⟨s', r'⟩, hrec, heq⟩
                          simp at heq
                          rcases heq with ⟨hs, hr⟩
                          subst hs; subst hr
                          rcases ih u' s' r' (by simp at hlen; omega) hrec with ⟨c₁, hd, hx⟩
                          refine ⟨'\\' :: e :: c₁, by simp [hd], ?_⟩
                          intro t
                          have hee : e = 'r' := by simpa using he7
                          subst hee
                          simp only [List.cons_append]
                          simp [strChars_cons, hx t]
                        · rw [if_neg he7] at h
                          by_cases he8 : e == 't'
                          · rw [if_pos he8] at h
                            rcases Option.map_eq_some'.mp h with ⟨⟨s', r'⟩, hrec, heq⟩
                            simp at heq
                            rcases heq with ⟨hs, hr⟩
                            subst hs; subst hr
                            rcases ih u' s' r' (by simp at hlen; omega) hrec with ⟨c₁, hd, hx⟩
                            refine ⟨'\\' :: e :: c₁, by simp [hd], ?_⟩
                            intro t
                            have hee : e = 't' := by simpa using he8
                            subst hee
                            simp only [List.cons_append]
                            simp [strChars_cons, hx t]
                          · rw [if_neg he8] at h
                            by_cases he9 : e == 'u'
                            · rw [if_pos he9] at h
                              have hee : e = 'u' := by simpa using he9
                              subst hee
                              split at h
                              · next h1 h2 h3 h4 u'' =>
                                by_cases hhex : (isHexDigit h1 && isHexDigit h2 &&
                                    isHexDigit h3 && isHexDigit h4) = true
                                · rw [if_pos hhex] at h
                                  rcases Option.map_eq_some'.mp h with ⟨⟨s', r'⟩, hrec, heq⟩
                                  simp at heq
                                  rcases heq with ⟨hs, hr⟩
                                  subst hs; subst hr
                                  rcases ih u'' s' r' (by simp at hlen; omega) hrec
                                    with ⟨c₁, hd, hx⟩
                                  refine ⟨'\\' :: 'u' :: h1 :: h2 :: h3 :: h4 :: c₁,
                                    by simp [hd], ?_⟩
                                  intro t
                                  simp only [List.cons_append]
                                  simp [strChars_cons, hhex, hx t]
                                · rw [if_neg hhex] at h
                                  simp at h
                              · simp at h
                            · rw [if_neg he9] at h
                              simp at h
        · rw [if_neg hb] at h
          by_cases hlt : c.toNat < 32
          · rw [if_pos hlt] at h
            simp at h
          · rw [if_neg hlt] at h
            rcases Option.map_eq_some'.mp h with ⟨⟨s', r'⟩, hrec, heq⟩
            simp at heq
            rcases heq with ⟨hs, hr⟩
            subst hs; subst hr
            rcases ih u s' r' (by simp at hlen; omega) hrec with ⟨c₁, hd, hx⟩
            refine ⟨c :: c₁, by simp [hd], ?_⟩
            intro t
            simp only [List.cons_append]
            simp [strChars_cons, hq, hb, hlt, hx t]

theorem parseVal_null (fuel : Nat) (t : List Char) :
    parseVal (fuel + 1) ('n' :: 'u' :: 'l' :: 'l' :: t) = some (JVal.null, t) := rfl

theorem parseVal_true (fuel : Nat) (t : List Char) :
    parseVal (fuel + 1) ('t' :: 'r' :: 'u' :: 'e' :: t) = some (JVal.bool true, t) := rfl

theorem parseVal_false (fuel : Nat) (t : List Char) :
    parseVal (fuel + 1) ('f' :: 'a' :: 'l' :: 's' :: 'e' :: t) = some (JVal.bool false, t) := rfl

theorem parseVal_str (fuel : Nat) (t : List Char) :
    parseVal (fuel + 1) ('"' :: t) = (strChars t).map (fun p => (JVal.str p.1, p.2)) := rfl

theorem parseVal_arr (fuel : Nat) (t : List Char) :
    parseVal (fuel + 1) ('[' :: t) =
      (match t.dropWhile jsonWs with
      | ']' :: r => some (JVal.arr [], r)
      | t1 => (parseElems fuel t1).map (fun p => (JVal.arr p.1, p.2))) := rfl

theorem parseVal_obj (fuel : Nat) (t : List Char) :
    parseVal (fuel + 1) ('{' :: t) =
      (match t.dropWhile jsonWs with
      | '}' :: r => some (JVal.obj [], r)
      | t1 => (parseMembers fuel t1).map (fun p => (JVal.obj p.1, p.2))) := rfl

theorem parseElems_succ (fuel : Nat) (l : List Char) :
    parseElems (fuel + 1) l =
      (match parseVal fuel l with
      | none => none
      | some (v, r) =>
        match r.dropWhile jsonWs with
        | ',' :: r2 =>
          match parseElems fuel (r2.dropWhile jsonWs) with
          | some (xs, r3) => some (v :: xs, r3)
          | none => none
        | ']' :: r2 => some ([v], r2)
        | _ => none) := rfl

theorem parseMembers_quote (fuel : Nat) (t : List Char) :
    parseMembers (fuel + 1) ('"' :: t) =
      (match strChars t with
      | none => none
      | some (k, r) =>
        match r.dropWhile jsonWs with
        | ':' :: r2 =>
          match parseVal fuel (r2.dropWhile jsonWs) with
          | none => none
          | some (v, r3) =>
            match r3.dropWhile jsonWs with
            | ',' :: r4 =>
              match parseMembers fuel (r4.dropWhile jsonWs) with
              | some (ms, r5) => some ((k, v) :: ms, r5)
              | none => none
            | '}' :: r4 => some ([(k, v)], r4)
            | _ => none
        | _ => none) := rfl

theorem parseVal_succ (fuel : Nat) (l : List Char) :
    parseVal (fuel + 1) l =
      (match l with
      | 'n' :: 'u' :: 'l' :: 'l' :: t => some (JVal.null, t)
      | 't' :: 'r' :: 'u' :: 'e' :: t => some (JVal.bool true, t)
      | 'f' :: 'a' :: 'l' :: 's' :: 'e' :: t => some (JVal.bool false, t)
      | '"' :: t => (strChars t).map (fun p => (JVal.str p.1, p.2))
      | '[' :: t =>
        match t.dropWhile jsonWs with
        | ']' :: r => some (JVal.arr [], r)
        | t1 => (parseElems fuel t1).map (fun p => (JVal.arr p.1, p.2))
      | '{' :: t =>
        match t.dropWhile jsonWs with
        | '}' :: r => some (JVal.obj [], r)
        | t1 => (parseMembers fuel t1).map (fun p => (JVal.obj p.1, p.2))
      | _ => (parseNum l).map (fun p => (JVal.num p.1, p.2))) := rfl

theorem parseMembers_succ (fuel : Nat) (l : List Char) :
    parseMembers (fuel + 1) l =
      (match l with
      | '"' :: t =>
        match strChars t with
        | none => none
        | some (k, r) =>
          match r.dropWhile jsonWs with
          | ':' :: r2 =>
            match parseVal fuel (r2.dropWhile jsonWs) with
            | none => none
            | some (v, r3) =>
              match r3.dropWhile jsonWs with
              | ',' :: r4 =>
                match parseMembers fuel (r4.dropWhile jsonWs) with
                | some (ms, r5) => some ((k, v) :: ms, r5)
                | none => none
              | '}' :: r4 => some ([(k, v)], r4)
              | _ => none
          | _ => none
      | _ => none) := rfl

/-- Characters that are not JavaScript whitespace are not JSON whitespace. -/
theorem not_jsonWs_of_not_jsWs {c : Char} (h : jsWs c = false) : jsonWs c = false := by
  by_cases hj : jsonWs c
  · rw [jsonWs_jsWs hj] at h; simp at h
  · simpa using hj

/-- The head of an append is the head of a nonempty left part. -/
theorem head_append_left {l l' : List Char} (h : l ≠ []) :
    (l ++ l').head? = l.head? := by
  match l with
  | [] => simp at h
  | a :: t => simp

/-- A list that starts with JSON whitespace, a comma, or a bracket cannot
extend a number lexeme; closed under prepending a whitespace-only block. -/
theorem numStopper_ws_append {w t : List Char} (hw : ∀ c ∈ w, jsonWs c = true)
    (ht : numStopper t) : numStopper (w ++ t) := by
  intro x hx
  match w with
  | [] => exact ht x (by simpa using hx)
  | a :: w' =>
    simp at hx
    subst hx
    exact Or.inl (hw a (by simp))

theorem numStopper_cons {x : Char} {t : List Char}
    (hx : jsonWs x = true ∨ x = ',' ∨ x = ']' ∨ x = '}') : numStopper (x :: t) := by
  intro y hy
  simp at hy
  subst hy
  exact hx

theorem numStopper_nil : numStopper ([] : List Char) := by
  intro y hy
  simp at hy

/-- Splitting a list along its `dropWhile` decomposition. -/
theorem takeWhile_decomp {p : Char → Bool} {l m : List Char}
    (h : l.dropWhile p = m) :
    l = l.takeWhile p ++ m ∧ ∀ c ∈ l.takeWhile p, p c = true := by
  constructor
  · rw [← h, List.takeWhile_append_dropWhile]
  · intro c hc
    exact List.mem_takeWhile_imp hc



/-! ## The parser consumed-prefix and replay theorem -/

theorem getLast?_app {l : List Char} {a : Char} : (l ++ [a]).getLast? = some a := by
  simp

/-- Existential form of the `takeWhile` decomposition: the dropped prefix as
an opaque witness. -/
theorem takeWhile_decomp2 {p : Char → Bool} {l m : List Char}
    (h : l.dropWhile p = m) :
    ∃ w, l = w ++ m ∧ ∀ c ∈ w, p c = true :=
  ⟨l.takeWhile p, (takeWhile_decomp h).1, (takeWhile_decomp h).2⟩

/-- Consumed-prefix decomposition and replay for the three mutually recursive
JSON parsers: a successful parse consumes a nonempty prefix whose first and
last characters are not whitespace, and parsing the same prefix followed by
any other continuation (with enough fuel) yields the same value. -/
theorem parser_spec : ∀ fuel : Nat,
    (∀ l v r, parseVal fuel l = some (v, r) →
      ∃ c, c ≠ [] ∧ l = c ++ r ∧
        (∀ x, c.head? = some x → jsWs x = false ∧ x ≠ ']' ∧ x ≠ '}') ∧
        (∀ x, c.getLast? = some x → jsWs x = false) ∧
        (∀ t fuel2, numStopper t → 2 * c.length + 1 ≤ fuel2 →
          parseVal fuel2 (c ++ t) = some (v, t))) ∧
    (∀ l vs r, parseElems fuel l = some (vs, r) →
      ∃ c, c ≠ [] ∧ l = c ++ ']' :: r ∧
        (∀ x, c.head? = some x → jsonWs x = false ∧ x ≠ ']') ∧
        (∀ t fuel2, 2 * c.length + 2 ≤ fuel2 →
          parseElems fuel2 (c ++ ']' :: t) = some (vs, t))) ∧
    (∀ l ms r, parseMembers fuel l = some (ms, r) →
      ∃ c, c ≠ [] ∧ l = c ++ '}' :: r ∧ c.head? = some '"' ∧
        (∀ t fuel2, 2 * c.length + 2 ≤ fuel2 →
          parseMembers fuel2 (c ++ '}' :: t) = some (ms, t))) := by
  intro fuel
  induction fuel with
  | zero =>
    refine ⟨?_, ?_, ?_⟩ <;> intro l a r h <;>
      simp [show ∀ m : List Char, parseVal 0 m = none from fun _ => rfl,
        show ∀ m : List Char, parseElems 0 m = none from fun _ => rfl,
        show ∀ m : List Char, parseMembers 0 m = none from fun _ => rfl] at h
  | succ fuel ih =>
    obtain ⟨ihV, ihE, ihM⟩ := ih
    refine ⟨?_, ?_, ?_⟩
    · -- parseVal
      intro l v r h
      rw [parseVal_succ] at h
      split at h
      · -- null
        next t =>
        simp only [Option.some.injEq, Prod.mk.injEq] at h
        obtain ⟨hv, hr⟩ := h
        subst hv; subst hr
        refine ⟨['n', 'u', 'l', 'l'], by simp, by simp, ?_, ?_, ?_⟩
        · intro x hx; simp at hx; subst hx; exact ⟨by decide, by decide, by decide⟩
        · intro x hx
          rw [show (['n', 'u', 'l', 'l'] : List Char).getLast? = some 'l' from rfl] at hx
          simp at hx; subst hx; decide
        · intro t2 fuel2 _ hf
          obtain ⟨k, rfl⟩ : ∃ k, fuel2 = k + 1 := ⟨fuel2 - 1, by omega⟩
          exact parseVal_null k t2
      · -- true
        next t =>
        simp only [Option.some.injEq, Prod.mk.injEq] at h
        obtain ⟨hv, hr⟩ := h
        subst hv; subst hr
        refine ⟨['t', 'r', 'u', 'e'], by simp, by simp, ?_, ?_, ?_⟩
        · intro x hx; simp at hx; subst hx; exact ⟨by decide, by decide, by decide⟩
        · intro x hx
          rw [show (['t', 'r', 'u', 'e'] : List Char).getLast? = some 'e' from rfl] at hx
          simp at hx; subst hx; decide
        · intro t2 fuel2 _ hf
          obtain ⟨k, rfl⟩ : ∃ k, fuel2 = k + 1 := ⟨fuel2 - 1, by omega⟩
          exact parseVal_true k t2
      · -- false
        next t =>
        simp only [Option.some.injEq, Prod.mk.injEq] at h
        obtain ⟨hv, hr⟩ := h
        subst hv; subst hr
        refine ⟨['f', 'a', 'l', 's', 'e'], by simp, by simp, ?_, ?_, ?_⟩
        · intro x hx; simp at hx; subst hx; exact ⟨by decide, by decide, by decide⟩
        · intro x hx
          rw [show (['f', 'a', 'l', 's', 'e'] : List Char).getLast? = some 'e' from rfl] at hx
          simp at hx; subst hx; decide
        · intro t2 fuel2 _ hf
          obtain ⟨k, rfl⟩ : ∃ k, fuel2 = k + 1 := ⟨fuel2 - 1, by omega⟩
          exact parseVal_false k t2
      · -- string
        next t =>
        rcases Option.map_eq_some'.mp h with ⟨⟨s, r'⟩, hsc, heq⟩
        simp only [Prod.mk.injEq] at heq
        obtain ⟨hv, hr⟩ := heq
        subst hv; subst hr
        rcases strChars_spec t.length t s r' le_rfl hsc with ⟨c₀, hd, hx⟩
        have hc : ('"' :: (c₀ ++ ['"']) : List Char) = ('"' :: c₀) ++ ['"'] := by simp
        refine ⟨'"' :: (c₀ ++ ['"']), by simp, by simp [hd], ?_, ?_, ?_⟩
        · intro x hx2; simp at hx2; subst hx2; exact ⟨by decide, by decide, by decide⟩
        · intro x hx2
          rw [hc, getLast?_app] at hx2
          simp at hx2; subst hx2; decide
        · intro t2 fuel2 _ hf
          obtain ⟨k, rfl⟩ : ∃ k, fuel2 = k + 1 := ⟨fuel2 - 1, by omega⟩
          have hsh : ('"' :: (c₀ ++ ['"'])) ++ t2 = '"' :: (c₀ ++ '"' :: t2) := by simp
          rw [hsh, parseVal_str, hx t2]
          rfl
      · -- array
        next t =>
        split at h
        · -- empty array
          next r1 heq1 =>
          simp only [Option.some.injEq, Prod.mk.injEq] at h
          obtain ⟨hv, hr⟩ := h
          subst hv; subst hr
          obtain ⟨w, hts, hws⟩ := takeWhile_decomp2 heq1
          have hc : ('[' :: (w ++ [']']) : List Char) =
              ('[' :: w) ++ [']'] := by simp
          refine ⟨'[' :: (w ++ [']']), by simp, ?_, ?_, ?_, ?_⟩
          · rw [show ('[' :: t : List Char) = '[' :: (w ++ ']' :: r1) by
              rw [← hts]]
            simp
          · intro x hx2; simp at hx2; subst hx2; exact ⟨by decide, by decide, by decide⟩
          · intro x hx2
            rw [hc, getLast?_app] at hx2
            simp at hx2; subst hx2; decide
          · intro t2 fuel2 _ hf
            obtain ⟨k, rfl⟩ : ∃ k, fuel2 = k + 1 := ⟨fuel2 - 1, by omega⟩
            have hsh : ('[' :: (w ++ [']'])) ++ t2 =
                '[' :: (w ++ ']' :: t2) := by simp
            rw [hsh, parseVal_arr, dropWhile_append_all hws,
              List.dropWhile_cons_of_neg (by decide)]
            rfl
        · -- nonempty array
          rcases Option.map_eq_some'.mp h with ⟨⟨vs, r'⟩, hpe, heq⟩
          simp only [Prod.mk.injEq] at heq
          obtain ⟨hv, hr⟩ := heq
          subst hv; subst hr
          rcases ihE _ _ _ hpe with ⟨ce, hcene, hdece, hheadE, hrepE⟩
          obtain ⟨w, hts, hws⟩ := takeWhile_decomp2 hdece
          have hc : ('[' :: (w ++ (ce ++ [']'])) : List Char) =
              ('[' :: (w ++ ce)) ++ [']'] := by simp
          refine ⟨'[' :: (w ++ (ce ++ [']'])), by simp, ?_, ?_, ?_, ?_⟩
          · rw [show ('[' :: t : List Char) =
                '[' :: (w ++ (ce ++ ']' :: r')) by rw [← hts]]
            simp
          · intro x hx2; simp at hx2; subst hx2; exact ⟨by decide, by decide, by decide⟩
          · intro x hx2
            rw [hc, getLast?_app] at hx2
            simp at hx2; subst hx2; decide
          · intro t2 fuel2 _ hf
            obtain ⟨k, rfl⟩ : ∃ k, fuel2 = k + 1 := ⟨fuel2 - 1, by omega⟩
            have hsh : ('[' :: (w ++ (ce ++ [']']))) ++ t2 =
                '[' :: (w ++ (ce ++ ']' :: t2)) := by simp
            have hdw : (ce ++ ']' :: t2).dropWhile jsonWs = ce ++ ']' :: t2 :=
              dropWhile_eq_self_head (by
                intro x hx2
                rw [head_append_left hcene] at hx2
                exact (hheadE x hx2).1)
            have hfe : 2 * ce.length + 2 ≤ k := by
              simp [List.length_append] at hf; omega
            have hpe2 : parseElems k (ce ++ ']' :: t2) = some (vs, t2) := hrepE t2 k hfe
            rw [hsh, parseVal_arr, dropWhile_append_all hws, hdw]
            split
            · next r1 heq2 =>
              exfalso
              match ce, hcene with
              | e :: ce', _ =>
                rw [List.cons_append] at heq2
                simp only [List.cons.injEq] at heq2
                exact absurd heq2.1 (hheadE e (by simp)).2
            · rw [hpe2]
              rfl
      · -- object
        next t =>
        split at h
        · -- empty object
          next r1 heq1 =>
          simp only [Option.some.injEq, Prod.mk.injEq] at h
          obtain ⟨hv, hr⟩ := h
          subst hv; subst hr
          obtain ⟨w, hts, hws⟩ := takeWhile_decomp2 heq1
          have hc : ('{' :: (w ++ ['}']) : List Char) =
              ('{' :: w) ++ ['}'] := by simp
          refine ⟨'{' :: (w ++ ['}']), by simp, ?_, ?_, ?_, ?_⟩
          · rw [show ('{' :: t : List Char) = '{' :: (w ++ '}' :: r1) by
              rw [← hts]]
            simp
          · intro x hx2; simp at hx2; subst hx2; exact ⟨by decide, by decide, by decide⟩
          · intro x hx2
            rw [hc, getLast?_app] at hx2
            simp at hx2; subst hx2; decide
          · intro t2 fuel2 _ hf
            obtain ⟨k, rfl⟩ : ∃ k, fuel2 = k + 1 := ⟨fuel2 - 1, by omega⟩
            have hsh : ('{' :: (w ++ ['}'])) ++ t2 =
                '{' :: (w ++ '}' :: t2) := by simp
            rw [hsh, parseVal_obj, dropWhile_append_all hws,
              List.dropWhile_cons_of_neg (by decide)]
            rfl
        · -- nonempty object
          rcases Option.map_eq_some'.mp h with ⟨⟨ms, r'⟩, hpm, heq⟩
          simp only [Prod.mk.injEq] at heq
          obtain ⟨hv, hr⟩ := heq
          subst hv; subst hr
          rcases ihM _ _ _ hpm with ⟨cm, hcmne, hdecm, hheadM, hrepM⟩
          obtain ⟨w, hts, hws⟩ := takeWhile_decomp2 hdecm
          have hc : ('{' :: (w ++ (cm ++ ['}'])) : List Char) =
              ('{' :: (w ++ cm)) ++ ['}'] := by simp
          refine ⟨'{' :: (w ++ (cm ++ ['}'])), by simp, ?_, ?_, ?_, ?_⟩
          · rw [show ('{' :: t : List Char) =
                '{' :: (w ++ (cm ++ '}' :: r')) by rw [← hts]]
            simp
          · intro x hx2; simp at hx2; subst hx2; exact ⟨by decide, by decide, by decide⟩
          · intro x hx2
            rw [hc, getLast?_app] at hx2
            simp at hx2; subst hx2; decide
          · intro t2 fuel2 _ hf
            obtain ⟨k, rfl⟩ : ∃ k, fuel2 = k + 1 := ⟨fuel2 - 1, by omega⟩
            have hsh : ('{' :: (w ++ (cm ++ ['}']))) ++ t2 =
                '{' :: (w ++ (cm ++ '}' :: t2)) := by simp
            have hdw : (cm ++ '}' :: t2).dropWhile jsonWs = cm ++ '}' :: t2 :=
              dropWhile_eq_self_head (by
                intro x hx2
                rw [head_append_left hcmne, hheadM] at hx2
                simp at hx2; subst hx2; decide)
            have hfm : 2 * cm.length + 2 ≤ k := by
              simp [List.length_append] at hf; omega
            have hpm2 : parseMembers k (cm ++ '}' :: t2) = some (ms, t2) := hrepM t2 k hfm
            rw [hsh, parseVal_obj, dropWhile_append_all hws, hdw]
            split
            · next r1 heq2 =>
              exfalso
              match cm, hcmne, hheadM with
              | e :: cm', _, hhM =>
                rw [List.cons_append] at heq2
                simp only [List.cons.injEq] at heq2
                simp at hhM
                rw [hhM] at heq2
                exact absurd heq2.1 (by decide)
            · rw [hpm2]
              rfl
      · -- number
        rcases Option.map_eq_some'.mp h with ⟨⟨lex, r'⟩, hpn, heq⟩
        simp only [Prod.mk.injEq] at heq
        obtain ⟨hv, hr⟩ := heq
        subst hv; subst hr
        obtain ⟨hlr, ⟨lex₀, d, hlex, hdd⟩, hd0, tl0, hlhd, hhd⟩ := parseNum_decomp hpn
        have hlexne : lex ≠ [] := by rw [hlex]; simp
        have hlexhd : lex.head? = some hd0 := by
          rw [← @head_append_left lex r' hlexne, ← hlr, hlhd]
          rfl
        obtain ⟨lext, hlex2⟩ : ∃ lext, lex = hd0 :: lext := by
          match lex, hlexhd with
          | a :: lext, hh =>
            simp at hh
            subst hh
            exact ⟨lext, rfl⟩
        refine ⟨lex, hlexne, hlr, ?_, ?_, ?_⟩
        · intro x hx2
          rw [hlexhd] at hx2
          simp at hx2
          subst hx2
          rcases hhd with hm | hdig
          · subst hm; exact ⟨by decide, by decide, by decide⟩
          · refine ⟨digit_not_jsWs hdig, ?_, ?_⟩
            · intro hx3; rw [hx3] at hdig; exact absurd hdig (by decide)
            · intro hx3; rw [hx3] at hdig; exact absurd hdig (by decide)
        · intro x hx2
          rw [hlex, getLast?_app] at hx2
          simp at hx2
          subst hx2
          exact digit_not_jsWs hdd
        · intro t2 fuel2 hst hf
          obtain ⟨k, rfl⟩ : ∃ k, fuel2 = k + 1 := ⟨fuel2 - 1, by omega⟩
          rw [parseVal_succ]
          have hshape : lex ++ t2 = hd0 :: (lext ++ t2) := by rw [hlex2]; rfl
          have hnum : (parseNum (lex ++ t2)).map (fun p => (JVal.num p.1, p.2)) =
              some (JVal.num lex, t2) := by
            rw [parseNum_ext hpn t2 hst]
            rfl
          split
          · next x heq2 =>
            exfalso
            rw [hshape] at heq2
            simp only [List.cons.injEq] at heq2
            rcases hhd with hm | hdig
            · rw [hm] at heq2; exact absurd heq2.1 (by decide)
            · rw [heq2.1] at hdig; exact absurd hdig (by decide)
          · next x heq2 =>
            exfalso
            rw [hshape] at heq2
            simp only [List.cons.injEq] at heq2
            rcases hhd with hm | hdig
            · rw [hm] at heq2; exact absurd heq2.1 (by decide)
            · rw [heq2.1] at hdig; exact absurd hdig (by decide)
          · next x heq2 =>
            exfalso
            rw [hshape] at heq2
            simp only [List.cons.injEq] at heq2
            rcases hhd with hm | hdig
            · rw [hm] at heq2; exact absurd heq2.1 (by decide)
            · rw [heq2.1] at hdig; exact absurd hdig (by decide)
          · next x heq2 =>
            exfalso
            rw [hshape] at heq2
            simp only [List.cons.injEq] at heq2
            rcases hhd with hm | hdig
            · rw [hm] at heq2; exact absurd heq2.1 (by decide)
            · rw [heq2.1] at hdig; exact absurd hdig (by decide)
          · next x heq2 =>
            exfalso
            rw [hshape] at heq2
            simp only [List.cons.injEq] at heq2
            rcases hhd with hm | hdig
            · rw [hm] at heq2; exact absurd heq2.1 (by decide)
            · rw [heq2.1] at hdig; exact absurd hdig (by decide)
          · next x heq2 =>
            exfalso
            rw [hshape] at heq2
            simp only [List.cons.injEq] at heq2
            rcases hhd with hm | hdig
            · rw [hm] at heq2; exact absurd heq2.1 (by decide)
            · rw [heq2.1] at hdig; exact absurd hdig (by decide)
          · exact hnum
    · -- parseElems
      intro l vs r h
      rw [parseElems_succ] at h
      split at h
      · simp at h
      · next v r1 heqV =>
        split at h
        · -- comma
          next r2 heq1 =>
          split at h
          · -- recursive elems succeed
            next xs r3 heq2 =>
            simp only [Option.some.injEq, Prod.mk.injEq] at h
            obtain ⟨hv, hr⟩ := h
            subst hv; subst hr
            rcases ihV _ _ _ heqV with ⟨cv, hcvne, hlv, hheadV, hlastV, hrepV⟩
            rcases ihE _ _ _ heq2 with ⟨ce, hcene, hdece, hheadE, hrepE⟩
            obtain ⟨w1, hr1, hw1⟩ := takeWhile_decomp2 heq1
            obtain ⟨w2, hr2, hw2⟩ := takeWhile_decomp2 hdece
            refine ⟨cv ++ (w1 ++
              ',' :: (w2 ++ ce)), by simp [hcvne], ?_, ?_, ?_⟩
            · rw [hlv, hr1, hr2]
              simp
            · intro x hx2
              rw [head_append_left hcvne] at hx2
              obtain ⟨h1, h2, _⟩ := hheadV x hx2
              exact ⟨not_jsonWs_of_not_jsWs h1, h2⟩
            · intro t2 fuel2 hf
              obtain ⟨k, rfl⟩ : ∃ k, fuel2 = k + 1 := ⟨fuel2 - 1, by omega⟩
              rw [parseElems_succ]
              have hsh : (cv ++ (w1 ++
                  ',' :: (w2 ++ ce))) ++ ']' :: t2 =
                  cv ++ (w1 ++
                  ',' :: (w2 ++ (ce ++ ']' :: t2))) := by simp
              have hfv : 2 * cv.length + 1 ≤ k := by
                simp [List.length_append] at hf; omega
              have hfe : 2 * ce.length + 2 ≤ k := by
                simp [List.length_append] at hf; omega
              have hpv : parseVal k (cv ++ (w1 ++
                  ',' :: (w2 ++ (ce ++ ']' :: t2)))) =
                  some (v, w1 ++
                  ',' :: (w2 ++ (ce ++ ']' :: t2))) :=
                hrepV _ k (numStopper_ws_append hw1
                  (numStopper_cons (Or.inr (Or.inl rfl)))) hfv
              have hdw1 : (w1 ++
                  ',' :: (w2 ++ (ce ++ ']' :: t2))).dropWhile jsonWs =
                  ',' :: (w2 ++ (ce ++ ']' :: t2)) := by
                rw [dropWhile_append_all hw1]
                exact List.dropWhile_cons_of_neg (by decide)
              have hdw2 : (w2 ++ (ce ++ ']' :: t2)).dropWhile jsonWs =
                  ce ++ ']' :: t2 := by
                rw [dropWhile_append_all hw2]
                exact dropWhile_eq_self_head (by
                  intro x hx2
                  rw [head_append_left hcene] at hx2
                  exact (hheadE x hx2).1)
              have hpe2 : parseElems k (ce ++ ']' :: t2) = some (xs, t2) := hrepE t2 k hfe
              rw [hsh]
              simp [hpv, hdw1, hdw2, hpe2]
          · simp at h
        · -- closing bracket
          next r2 heq1 =>
          simp only [Option.some.injEq, Prod.mk.injEq] at h
          obtain ⟨hv, hr⟩ := h
          subst hv; subst hr
          rcases ihV _ _ _ heqV with ⟨cv, hcvne, hlv, hheadV, hlastV, hrepV⟩
          obtain ⟨w1, hr1, hw1⟩ := takeWhile_decomp2 heq1
          refine ⟨cv ++ w1, by simp [hcvne], ?_, ?_, ?_⟩
          · rw [hlv, hr1]
            simp
          · intro x hx2
            rw [head_append_left hcvne] at hx2
            obtain ⟨h1, h2, _⟩ := hheadV x hx2
            exact ⟨not_jsonWs_of_not_jsWs h1, h2⟩
          · intro t2 fuel2 hf
            obtain ⟨k, rfl⟩ : ∃ k, fuel2 = k + 1 := ⟨fuel2 - 1, by omega⟩
            rw [parseElems_succ]
            have hsh : (cv ++ w1) ++ ']' :: t2 =
                cv ++ (w1 ++ ']' :: t2) := by simp
            have hfv : 2 * cv.length + 1 ≤ k := by
              simp [List.length_append] at hf; omega
            have hpv : parseVal k (cv ++ (w1 ++ ']' :: t2)) =
                some (v, w1 ++ ']' :: t2) :=
              hrepV _ k (numStopper_ws_append hw1
                (numStopper_cons (Or.inr (Or.inr (Or.inl rfl))))) hfv
            have hdw1 : (w1 ++ ']' :: t2).dropWhile jsonWs =
                ']' :: t2 := by
              rw [dropWhile_append_all hw1]
              exact List.dropWhile_cons_of_neg (by decide)
            rw [hsh]
            simp [hpv, hdw1]
        · simp at h
    · -- parseMembers
      intro l ms r h
      rw [parseMembers_succ] at h
      split at h
      · -- leading quote
        next t =>
        split at h
        · simp at h
        · next key r1 heqS =>
          split at h
          · -- colon
            next r2 heq1 =>
            split at h
            · simp at h
            · next v r3 heqV =>
              split at h
              · -- comma: recursive members
                next r4 heq3 =>
                split at h
                · next ms' r5 heqM =>
                  simp only [Option.some.injEq, Prod.mk.injEq] at h
                  obtain ⟨hv, hr⟩ := h
                  subst hv; subst hr
                  rcases strChars_spec t.length t key r1 le_rfl heqS with ⟨ck, hdk, hxk⟩
                  rcases ihV _ _ _ heqV with ⟨cv, hcvne, hlv, hheadV, hlastV, hrepV⟩
                  rcases ihM _ _ _ heqM with ⟨cm, hcmne, hdecm, hheadM, hrepM⟩
                  obtain ⟨w1, hr1, hw1⟩ := takeWhile_decomp2 heq1
                  obtain ⟨w2, hr2, hw2⟩ := takeWhile_decomp2 hlv
                  obtain ⟨w3, hr3, hw3⟩ := takeWhile_decomp2 heq3
                  obtain ⟨w4, hr4, hw4⟩ := takeWhile_decomp2 hdecm
                  refine ⟨'"' :: (ck ++ '"' :: (w1 ++
                    ':' :: (w2 ++ (cv ++ (w3 ++
                    ',' :: (w4 ++ cm)))))), by simp, ?_, rfl, ?_⟩
                  · rw [hdk, hr1, hr2, hr3, hr4]
                    simp
                  · intro t2 fuel2 hf
                    obtain ⟨k, rfl⟩ : ∃ k, fuel2 = k + 1 := ⟨fuel2 - 1, by omega⟩
                    have hsh : ('"' :: (ck ++ '"' :: (w1 ++
                        ':' :: (w2 ++ (cv ++ (w3 ++
                        ',' :: (w4 ++ cm))))))) ++ '}' :: t2 =
                        '"' :: (ck ++ '"' :: (w1 ++
                        ':' :: (w2 ++ (cv ++ (w3 ++
                        ',' :: (w4 ++ (cm ++ '}' :: t2))))))) := by simp
                    rw [hsh, parseMembers_quote]
                    have hfv : 2 * cv.length + 1 ≤ k := by
                      simp [List.length_append] at hf; omega
                    have hfm : 2 * cm.length + 2 ≤ k := by
                      simp [List.length_append] at hf; omega
                    have hS := hxk (w1 ++
                      ':' :: (w2 ++ (cv ++ (w3 ++
                      ',' :: (w4 ++ (cm ++ '}' :: t2))))))
                    have hdw1 : (w1 ++
                        ':' :: (w2 ++ (cv ++ (w3 ++
                        ',' :: (w4 ++
                        (cm ++ '}' :: t2)))))).dropWhile jsonWs =
                        ':' :: (w2 ++ (cv ++ (w3 ++
                        ',' :: (w4 ++ (cm ++ '}' :: t2))))) := by
                      rw [dropWhile_append_all hw1]
                      exact List.dropWhile_cons_of_neg (by decide)
                    have hdw2 : (w2 ++ (cv ++ (w3 ++
                        ',' :: (w4 ++
                        (cm ++ '}' :: t2))))).dropWhile jsonWs =
                        cv ++ (w3 ++
                        ',' :: (w4 ++ (cm ++ '}' :: t2))) := by
                      rw [dropWhile_append_all hw2]
                      exact dropWhile_eq_self_head (by
                        intro x hx2
                        rw [head_append_left hcvne] at hx2
                        exact not_jsonWs_of_not_jsWs (hheadV x hx2).1)
                    have hpv : parseVal k (cv ++ (w3 ++
                        ',' :: (w4 ++ (cm ++ '}' :: t2)))) =
                        some (v, w3 ++
                        ',' :: (w4 ++ (cm ++ '}' :: t2))) :=
                      hrepV _ k (numStopper_ws_append hw3
                        (numStopper_cons (Or.inr (Or.inl rfl)))) hfv
                    have hdw3 : (w3 ++
                        ',' :: (w4 ++
                        (cm ++ '}' :: t2))).dropWhile jsonWs =
                        ',' :: (w4 ++ (cm ++ '}' :: t2)) := by
                      rw [dropWhile_append_all hw3]
                      exact List.dropWhile_cons_of_neg (by decide)
                    have hdw4 : (w4 ++
                        (cm ++ '}' :: t2)).dropWhile jsonWs = cm ++ '}' :: t2 := by
                      rw [dropWhile_append_all hw4]
                      exact dropWhile_eq_self_head (by
                        intro x hx2
                        rw [head_append_left hcmne, hheadM] at hx2
                        simp at hx2; subst hx2; decide)
                    have hpm2 : parseMembers k (cm ++ '}' :: t2) = some (ms', t2) :=
                      hrepM t2 k hfm
                    simp [hS, hdw1, hdw2, hpv, hdw3, hdw4, hpm2]
                · simp at h
              · -- closing brace
                next r4 heq3 =>
                simp only [Option.some.injEq, Prod.mk.injEq] at h
                obtain ⟨hv, hr⟩ := h
                subst hv; subst hr
                rcases strChars_spec t.length t key r1 le_rfl heqS with ⟨ck, hdk, hxk⟩
                rcases ihV _ _ _ heqV with ⟨cv, hcvne, hlv, hheadV, hlastV, hrepV⟩
                obtain ⟨w1, hr1, hw1⟩ := takeWhile_decomp2 heq1
                obtain ⟨w2, hr2, hw2⟩ := takeWhile_decomp2 hlv
                obtain ⟨w3, hr3, hw3⟩ := takeWhile_decomp2 heq3
                refine ⟨'"' :: (ck ++ '"' :: (w1 ++
                  ':' :: (w2 ++ (cv ++ w3)))),
                  by simp, ?_, rfl, ?_⟩
                · rw [hdk, hr1, hr2, hr3]
                  simp
                · intro t2 fuel2 hf
                  obtain ⟨k, rfl⟩ : ∃ k, fuel2 = k + 1 := ⟨fuel2 - 1, by omega⟩
                  have hsh : ('"' :: (ck ++ '"' :: (w1 ++
                      ':' :: (w2 ++ (cv ++ w3))))) ++
                      '}' :: t2 =
                      '"' :: (ck ++ '"' :: (w1 ++
                      ':' :: (w2 ++ (cv ++ (w3 ++
                      '}' :: t2))))) := by simp
                  rw [hsh, parseMembers_quote]
                  have hfv : 2 * cv.length + 1 ≤ k := by
                    simp [List.length_append] at hf; omega
                  have hS := hxk (w1 ++
                    ':' :: (w2 ++ (cv ++ (w3 ++
                    '}' :: t2))))
                  have hdw1 : (w1 ++
                      ':' :: (w2 ++ (cv ++ (w3 ++
                      '}' :: t2)))).dropWhile jsonWs =
                      ':' :: (w2 ++ (cv ++ (w3 ++
                      '}' :: t2))) := by
                    rw [dropWhile_append_all hw1]
                    exact List.dropWhile_cons_of_neg (by decide)
                  have hdw2 : (w2 ++ (cv ++ (w3 ++
                      '}' :: t2))).dropWhile jsonWs =
                      cv ++ (w3 ++ '}' :: t2) := by
                    rw [dropWhile_append_all hw2]
                    exact dropWhile_eq_self_head (by
                      intro x hx2
                      rw [head_append_left hcvne] at hx2
                      exact not_jsonWs_of_not_jsWs (hheadV x hx2).1)
                  have hpv : parseVal k (cv ++ (w3 ++ '}' :: t2)) =
                      some (v, w3 ++ '}' :: t2) :=
                    hrepV _ k (numStopper_ws_append hw3
                      (numStopper_cons (Or.inr (Or.inr (Or.inr rfl))))) hfv
                  have hdw3 : (w3 ++ '}' :: t2).dropWhile jsonWs =
                      '}' :: t2 := by
                    rw [dropWhile_append_all hw3]
                    exact List.dropWhile_cons_of_neg (by decide)
                  simp [hS, hdw1, hdw2, hpv, hdw3]
              · simp at h
          · simp at h
      · simp at h



/-! ## Lemmas about the fence-stripping scanner -/

/-- Unfolding the fence scanner one step on a cons cell. -/
theorem removeFencesGo_succ_cons (f : Nat) (c : Char) (t : List Char) :
    removeFencesGo (f + 1) (c :: t) =
      (if fenceJson.isPrefixOf (c :: t) then removeFencesGo f ((c :: t).drop 7)
      else if fenceBare.isPrefixOf (c :: t) then removeFencesGo f ((c :: t).drop 3)
      else c :: removeFencesGo f t) := rfl

theorem removeFencesGo_nil (f : Nat) : removeFencesGo f [] = [] := by
  cases f <;> rfl

/-- If the 7-character alternative matches, so does the 3-character one. -/
theorem bare_of_json {l : List Char} (h : fenceJson.isPrefixOf l = true) :
    fenceBare.isPrefixOf l = true := by
  have h1 : fenceJson <+: l := isPre_iff.mp h
  obtain ⟨q, hq⟩ := h1
  refine isPre_iff.mpr ⟨"json".data ++ q, ?_⟩
  rw [← hq, show fenceJson = fenceBare ++ "json".data from rfl]
  simp

/-- Where no fence starts, the scanner keeps the character. -/
theorem removeFencesGo_keep {c : Char} {t : List Char} (f : Nat)
    (h : fenceBare.isPrefixOf (c :: t) = false) :
    removeFencesGo (f + 1) (c :: t) = c :: removeFencesGo f t := by
  rw [removeFencesGo_succ_cons, if_neg, if_neg]
  · simp [h]
  · intro hj
    rw [bare_of_json hj] at h
    simp at h

/-- The scanner passes over a block in which no fence starts. -/
theorem removeFencesGo_append : ∀ (m : List Char) (b : List Char) (f : Nat),
    (∀ s, s ≠ [] → s <:+ m → fenceBare.isPrefixOf (s ++ b) = false) →
    removeFencesGo (m.length + f) (m ++ b) = m ++ removeFencesGo f b := by
  intro m
  induction m with
  | nil => intro b f _; simp
  | cons c m' ih =>
    intro b f hno
    have hstep : (c :: m').length + f = (m'.length + f) + 1 := by simp; omega
    rw [hstep, List.cons_append,
      removeFencesGo_keep (m'.length + f)
        (by simpa using hno (c :: m') (by simp) (List.suffix_rfl)),
      ih b f (fun s hne hs => hno s hne (hs.trans (List.suffix_cons c m')))]
    rfl

/-- Consuming the ` ```json ` fence at the head. -/
theorem removeFencesGo_json (f : Nat) (rest : List Char) :
    removeFencesGo (f + 1) (fenceJson ++ rest) = removeFencesGo f rest := by
  rw [show fenceJson ++ rest = Char.ofNat 96 :: ("``json".data ++ rest) from rfl,
    removeFencesGo_succ_cons, if_pos]
  · rfl
  · exact isPre_iff.mpr ⟨rest, rfl⟩

/-- A nonempty suffix of a concat decomposes as a suffix of the left part
followed by the final element. -/
theorem suffix_concat {s a : List Char} {x : Char} (hne : s ≠ [])
    (h : s <:+ a ++ [x]) : ∃ s₂, s = s₂ ++ [x] ∧ s₂ <:+ a := by
  obtain ⟨p, hp⟩ := h
  obtain ⟨s₂, hs₂⟩ := exists_append_getLastD s '0' hne
  have h2 : (p ++ s₂) ++ [s.getLastD '0'] = a ++ [x] := by
    rw [List.append_assoc, ← hs₂]
    exact hp
  have hx : s.getLastD '0' = x := by
    have := congrArg List.getLast? h2
    rw [getLast?_app, getLast?_app] at this
    simpa using this
  obtain ⟨h3, _⟩ := List.append_inj' h2 (by simp)
  exact ⟨s₂, by rw [hs₂, hx], ⟨p, h3⟩⟩

/-- No triple-backtick run can start inside `'\n' :: X` continued by anything,
when ` ``` ` does not occur in `X` itself. -/
theorem no_bare_start {X s₂ Y : List Char} (hnof : ¬ (fenceBare <:+: X))
    (hs : s₂ <:+ '\n' :: X) :
    fenceBare.isPrefixOf (s₂ ++ '\n' :: Y) = false := by
  by_cases hb : fenceBare.isPrefixOf (s₂ ++ '\n' :: Y) = true
  · exfalso
    obtain ⟨q, hq⟩ := isPre_iff.mp hb
    by_cases hlen : s₂.length ≤ 2
    · -- the newline falls inside the would-be fence
      have hmem : ('\n' : Char) ∈ fenceBare := by
        have hidx : (fenceBare ++ q)[s₂.length]? = (s₂ ++ '\n' :: Y)[s₂.length]? := by
          rw [hq]
        rw [List.getElem?_append_left (by rw [show fenceBare.length = 3 from rfl]; omega),
          List.getElem?_append_right (le_refl s₂.length)] at hidx
        simp at hidx
        exact List.getElem?_mem hidx
      exact absurd hmem (by decide)
    · -- the fence fits inside `s₂`, hence inside `'\n' :: X`
      have htake : fenceBare = s₂.take 3 := by
        have h1 : (fenceBare ++ q).take 3 = (s₂ ++ '\n' :: Y).take 3 := by rw [hq]
        rw [show (3 : Nat) = fenceBare.length from rfl, List.take_left,
          show fenceBare.length = 3 from rfl,
          List.take_append_of_le_length (by omega)] at h1
        exact h1
      have hpre : fenceBare <+: s₂ := htake ▸ List.take_prefix 3 s₂
      obtain ⟨q2, hq2⟩ := hpre
      obtain ⟨p2, hp2⟩ := hs
      have hfull : p2 ++ (fenceBare ++ q2) = '\n' :: X := by rw [hq2]; exact hp2
      match p2, hfull with
      | [], hfull =>
        rw [List.nil_append,
          show fenceBare = Char.ofNat 96 :: "``".data from rfl] at hfull
        simp only [List.cons_append, List.cons.injEq] at hfull
        exact absurd hfull.1 (by decide)
      | c :: p2', hfull =>
        simp only [List.cons_append, List.cons.injEq] at hfull
        exact hnof ⟨p2', q2, by rw [List.append_assoc]; exact hfull.2⟩
  · simp only [Bool.not_eq_true] at hb
    exact hb

/-- The fence-stripping pass on the exact wrapped shape: both fences are
deleted and the wrapped text survives unchanged. -/
theorem removeFences_wrapped {X : List Char} (hnof : ¬ (fenceBare <:+: X)) :
    removeFences (fenceJson ++ (('\n' :: X ++ ['\n']) ++ fenceBare)) =
      '\n' :: X ++ ['\n'] := by
  unfold removeFences
  have hlen : (fenceJson ++ (('\n' :: X ++ ['\n']) ++ fenceBare)).length + 1 =
      ((('\n' :: X ++ ['\n']).length + 10) + 1) := by
    simp [show fenceJson.length = 7 from rfl, show fenceBare.length = 3 from rfl]
    omega
  rw [hlen, removeFencesGo_json, removeFencesGo_append _ _ 10 ?hno,
    show removeFencesGo 10 fenceBare = [] from rfl, List.append_nil]
  case hno =>
    intro s hne hs
    obtain ⟨s₂, hs₂, hsuf⟩ := suffix_concat hne hs
    rw [hs₂, List.append_assoc, List.singleton_append]
    exact no_bare_start hnof hsuf



/-! ## Trim lemmas and the amended fence round trip (claim C6) -/

/-- Unfolding the right-trim one step. -/
theorem rtrimWs_cons (c : Char) (t : List Char) :
    rtrimWs (c :: t) =
      (match rtrimWs t with
      | [] => if jsWs c then [] else [c]
      | r => c :: r) := rfl

/-- A whitespace-only list right-trims to nothing. -/
theorem rtrimWs_all_ws : ∀ {w : List Char}, (∀ c ∈ w, jsWs c = true) → rtrimWs w = [] := by
  intro w
  induction w with
  | nil => intro _; rfl
  | cons c t ih =>
    intro h
    rw [rtrimWs_cons, ih (fun x hx => h x (by simp [hx]))]
    simp [h c (by simp)]

/-- Right-trimming absorbs a trailing whitespace-only block. -/
theorem rtrimWs_append_ws : ∀ (m : List Char) {w : List Char},
    (∀ c ∈ w, jsWs c = true) → rtrimWs (m ++ w) = rtrimWs m := by
  intro m
  induction m with
  | nil => intro w hw; simp [rtrimWs_all_ws hw]; rfl
  | cons c m' ih =>
    intro w hw
    rw [List.cons_append, rtrimWs_cons, ih hw, rtrimWs_cons]

/-- The last element of an append with a nonempty right part. -/
theorem getLast?_append_right {a b : List Char} (hb : b ≠ []) :
    (a ++ b).getLast? = b.getLast? := by
  obtain ⟨b₂, hb₂⟩ := exists_append_getLastD b '0' hb
  rw [hb₂, ← List.append_assoc, getLast?_app, getLast?_app]

/-- JavaScript `trim` of a value sandwiched between whitespace blocks. -/
theorem jsTrimBoth_sandwich {p m s : List Char}
    (hp : ∀ c ∈ p, jsWs c = true) (hs : ∀ c ∈ s, jsWs c = true)
    (hhead : ∀ x, m.head? = some x → jsWs x = false)
    (hlast : ∀ x, m.getLast? = some x → jsWs x = false)
    (hne : m ≠ []) :
    jsTrimBoth ((p ++ m) ++ s) = m := by
  unfold jsTrimBoth
  rw [rtrimWs_append_ws _ hs,
    rtrimWs_eq_self _ (by
      intro x hx
      rw [getLast?_append_right hne] at hx
      exact hlast x hx),
    dropWhile_append_all hp, dropWhile_eq_self_head hhead]

/-- Claim C6, amended: for every valid JSON text `X` in which the substring
` ``` ` does not occur, stripping the fences from the wrapped completion
` ```json\nX\n``` ` parses back to exactly the value of `X`. -/
theorem C6_fence_round_trip (X : String) (v : JVal)
    (hparse : parseJSON X = some v)
    (hnof : ¬ (fenceBare <:+: X.data)) :
    parseJSON (stripFences ("```json\n" ++ X ++ "\n```")) = parseJSON X := by
  -- dissect the hypothesis: one value parse and whitespace-only remainder
  unfold parseJSON at hparse
  split at hparse
  · next v₀ r₀ hpv =>
    split at hparse
    · next hr₀ =>
      simp only [Option.some.injEq] at hparse
      subst hparse
      -- consumed-prefix decomposition of the successful parse
      obtain ⟨c, hcne, hdecomp, hhead, hlast, hrep⟩ :=
        (parser_spec (2 * X.data.length + 2)).1 _ _ _ hpv
      obtain ⟨wsP, hXd, hwsP⟩ := takeWhile_decomp2 hdecomp
      have hr₀ws : ∀ x ∈ r₀, jsonWs x = true := List.dropWhile_eq_nil_iff.mp hr₀
      -- the wrapped input in scanner-ready shape
      have hraw : ("```json\n" ++ X ++ "\n```").data =
          fenceJson ++ (('\n' :: X.data ++ ['\n']) ++ fenceBare) := by
        rw [String.data_append, String.data_append,
          show ("```json\n").data = fenceJson ++ ['\n'] from rfl,
          show ("\n```").data = '\n' :: fenceBare from rfl]
        simp
      -- strip the fences
      have hstrip : stripFences ("```json\n" ++ X ++ "\n```") = ⟨c⟩ := by
        unfold stripFences
        rw [hraw, removeFences_wrapped hnof]
        congr 1
        have hshape : '\n' :: X.data ++ ['\n'] =
            (('\n' :: wsP) ++ c) ++ (r₀ ++ ['\n']) := by
          rw [hXd]
          simp
        rw [hshape]
        exact jsTrimBoth_sandwich
          (by
            intro x hx
            simp at hx
            rcases hx with hx | hx
            · subst hx; decide
            · exact jsonWs_jsWs (hwsP x hx))
          (by
            intro x hx
            simp at hx
            rcases hx with hx | hx
            · exact jsonWs_jsWs (hr₀ws x hx)
            · subst hx; decide)
          (fun x hx => (hhead x hx).1) hlast hcne
      rw [hstrip]
      -- parse the stripped text
      have hc0 : (String.mk c).data = c := rfl
      have hcdrop : c.dropWhile jsonWs = c :=
        dropWhile_eq_self_head (fun x hx => not_jsonWs_of_not_jsWs (hhead x hx).1)
      have hcparse : parseVal (2 * c.length + 2) c = some (v₀, []) := by
        have := hrep [] (2 * c.length + 2) numStopper_nil (by omega)
        rwa [List.append_nil] at this
      unfold parseJSON
      rw [hc0, hcdrop, hcparse, hpv]
      simp [hr₀]
    · simp at hparse
  · exact absurd hparse (by simp)

/-- Claim C6, witness: the round trip holds for the concrete valid JSON text
`[1, 2]`, which contains no triple-backtick. -/
theorem C6_witness :
    parseJSON "[1, 2]" = some (JVal.arr [JVal.num ['1'], JVal.num ['2']]) ∧
    ¬ (fenceBare <:+: ("[1, 2]" : String).data) ∧
    parseJSON (stripFences ("```json\n" ++ "[1, 2]" ++ "\n```")) =
      parseJSON "[1, 2]" :=
  ⟨rfl, by decide,
    C6_fence_round_trip "[1, 2]" (JVal.arr [JVal.num ['1'], JVal.num ['2']])
      rfl (by decide)⟩


end Compliance
